import Mathlib

/-!
# Game of Fifteen (`fifteen.c`)

A shallow embedding of `fifteen.c`: the global board, the dimension `d`, the
operations `init`, `draw`, `move` and `won`, and the loop of `main` as far as
the log file is concerned.

Modelling conventions.

* `int` is modelled by `Int`.  For `d` in `[DIM_MIN, DIM_MAX]` every
  intermediate value the engine computes (`d * d - 1`, the counters, index
  differences) lies in `[-81, 81]`, far inside the 32-bit range, so no
  wrap-around can occur and no reduction modulo `2^32` is needed.
* The global `int board[DIM_MAX][DIM_MAX]` is a function from a row and a
  column index to the stored value; a store is a point-wise update.  Indices
  are kept as `Int`, as in the source, so that `d - 3` and `d - 2` in `init`
  are the integers the program computes.
* An early `return` inside a loop is a flag in the loop state: once it is set
  the remaining iterations leave the state alone.
* The globals are threaded explicitly: every operation takes `d` and the board
  and a mutating operation returns the new board.
* A `for (int k = 0; k < d; k++)` loop is a left fold over `0, 1, .., d - 1`.
* C's `%` truncates towards zero, which is `Int.tmod`.
* Standard output and the log file are strings; `printf` and `fprintf` append
  to them, and `%d` and `%i` produce the decimal text of the integer.
* The integers `scanf` reads are a list; the loop of `main` consumes one per
  turn.
-/

set_option linter.unusedVariables false

namespace Fifteen

/-- The constant `DIM_MIN`. -/
def DIM_MIN : Int := 3

/-- The constant `DIM_MAX`. -/
def DIM_MAX : Int := 9

/-- The global `int board[DIM_MAX][DIM_MAX]`, read as `board[i][j]`. -/
abbrev Board := Int → Int → Int

/-- The board of a freshly started process: C zero-initialises globals. -/
def zeroBoard : Board := fun _ _ => 0

/-- The store `board[i][j] = v`. -/
def Board.set (b : Board) (i j v : Int) : Board :=
  fun r c => if r = i ∧ c = j then v else b r c

/-- The values taken by the loop variable of `for (int k = 0; k < d; k++)`. -/
def idx (d : Int) : List Int := (List.range d.toNat).map Int.ofNat

/-- C's `abs` on `int`. -/
def abs (x : Int) : Int := if x < 0 then -x else x

/-! ## `init` -/

/-- The body of the inner loop of `init`: `board[i][j] = ds - count; count++;`.
The state is the board and `count`. -/
def initCell (ds i j : Int) (s : Board × Int) : Board × Int :=
  (s.1.set i j (ds - s.2), s.2 + 1)

/-- The two nested loops of `init`, started from `count = 0`. -/
def initFill (d : Int) (b : Board) : Board × Int :=
  let ds := d * d - 1
  (idx d).foldl (fun s i => (idx d).foldl (fun s j => initCell ds i j s) s) (b, 0)

/-- The function `init`, run on the board `b`. -/
def init (d : Int) (b : Board) : Board :=
  let ds := d * d - 1
  let b1 := (initFill d b).1
  if Int.tmod (ds + 1) 2 = 0 then
    (b1.set (d - 1) (d - 3) 1).set (d - 1) (d - 2) 2
  else
    b1

/-! ## `move` -/

/-- The four locals `row`, `col`, `blankRow`, `blankCol` of `move`. -/
structure Pos where
  row : Int
  col : Int
  blankRow : Int
  blankCol : Int
deriving DecidableEq, Repr

/-- The body of the inner search loop of `move`. -/
def scanCell (b : Board) (tile i j : Int) (p : Pos) : Pos :=
  let p1 := if b i j = tile then { p with row := i, col := j } else p
  if b i j = 0 then { p1 with blankRow := i, blankCol := j } else p1

/-- The two nested search loops of `move`, started from all four locals `0`. -/
def scan (d : Int) (b : Board) (tile : Int) : Pos :=
  (idx d).foldl (fun p i => (idx d).foldl (fun p j => scanCell b tile i j p) p)
    { row := 0, col := 0, blankRow := 0, blankCol := 0 }

/-- The function `move`: the returned `int` and the board after the call. -/
def move (d : Int) (b : Board) (tile : Int) : Int × Board :=
  if tile > d * d - 1 ∨ tile < 1 then
    (0, b)
  else
    let p := scan d b tile
    if (abs (p.row - p.blankRow) = 1 ∧ p.col = p.blankCol) ∨
        (p.row = p.blankRow ∧ abs (p.col - p.blankCol) = 1) then
      (1, (b.set p.blankRow p.blankCol tile).set p.row p.col 0)
    else
      (0, b)

/-! ## `won` -/

/-- The state of the loops of `won`: the local `counter`, and the value
returned by an early `return`, if one has been executed. -/
structure WonState where
  counter : Int
  ret : Option Int
deriving DecidableEq, Repr

/-- The body of the inner loop of `won`; once a `return` has been executed
the remaining iterations do nothing. -/
def wonCell (d : Int) (b : Board) (i j : Int) (s : WonState) : WonState :=
  match s.ret with
  | some _ => s
  | none =>
    let counter := s.counter + 1
    if counter ≠ d * d then
      if b i j ≠ counter then { counter := counter, ret := some 0 }
      else { counter := counter, ret := none }
    else { counter := counter, ret := none }

/-- The two nested loops of `won`, started from `counter = 0`. -/
def wonScan (d : Int) (b : Board) : WonState :=
  (idx d).foldl (fun s i => (idx d).foldl (fun s j => wonCell d b i j s) s)
    { counter := 0, ret := none }

/-- The function `won`. -/
def won (d : Int) (b : Board) : Int :=
  match (wonScan d b).ret with
  | some r => r
  | none => 1

/-! ## The data-model invariant and other specification-side notions -/

/-- The cells of the `d × d` region in row-major order. -/
def cells (d : Int) : List (Int × Int) :=
  (idx d).flatMap (fun i => (idx d).map (fun j => (i, j)))

/-- The number of cells of the `d × d` region that hold `v`. -/
def occurrences (d : Int) (b : Board) (v : Int) : Nat :=
  (cells d).countP (fun p => decide (b p.1 p.2 = v))

/-- The data-model invariant: each of `0, 1, .., d² - 1` is held by exactly
one cell of the `d × d` region. -/
def Invariant (d : Int) (b : Board) : Prop :=
  ∀ v ∈ List.range (d * d).toNat, occurrences d b (Int.ofNat v) = 1

instance (d : Int) (b : Board) : Decidable (Invariant d b) := by
  unfold Invariant; infer_instance

/-- Row `i`, column `j` lies in the `d × d` region. -/
def InRegion (d i j : Int) : Prop := 0 ≤ i ∧ i < d ∧ 0 ≤ j ∧ j < d

instance (d i j : Int) : Decidable (InRegion d i j) := by
  unfold InRegion; infer_instance

/-- Two cells are orthogonal neighbours: same row and columns one apart, or
same column and rows one apart. -/
def Adjacent (r c br bc : Int) : Prop :=
  (r = br ∧ (c - bc = 1 ∨ bc - c = 1)) ∨ (c = bc ∧ (r - br = 1 ∨ br - r = 1))

instance (r c br bc : Int) : Decidable (Adjacent r c br bc) := by
  unfold Adjacent; infer_instance

/-- The board as a list of rows, for display of concrete states. -/
def rows (d : Int) (b : Board) : List (List Int) :=
  (idx d).map (fun i => (idx d).map (fun j => b i j))

/-! ## Auxiliary and specification-side definitions -/

/-- The search loops of `move` run over an explicit list of cells. -/
def scanList (b : Board) (tile : Int) (l : List (Int × Int)) (p : Pos) : Pos :=
  l.foldl (fun p q => scanCell b tile q.1 q.2 p) p

/-- The winning test of `won`: every cell of the region except the one visited
last holds its 1-based row-major position. -/
def FirstCellsAscending (d : Int) (b : Board) : Prop :=
  ∀ i j, InRegion d i j → i * d + j + 1 ≠ d * d → b i j = i * d + j + 1

/-- The winning configuration on the region: ascending `1, .., d² - 1` in
row-major order, then the blank in the final cell `(d - 1, d - 1)`. -/
def IsWinning (d : Int) (b : Board) : Prop :=
  (∀ i j, InRegion d i j → ¬ (i = d - 1 ∧ j = d - 1) → b i j = i * d + j + 1) ∧
    b (d - 1) (d - 1) = 0

/-- The starting arrangement in closed form: the descending row-major fill,
with tiles 1 and 2 exchanged in the last row when `d` is even. -/
def startBoard (d : Int) : Board := fun i j =>
  if d % 2 = 0 ∧ i = d - 1 ∧ j = d - 3 then 1
  else if d % 2 = 0 ∧ i = d - 1 ∧ j = d - 2 then 2
  else d * d - 1 - (i * d + j)

/-- A session's board: `move` applied to each requested tile in turn. -/
def play (d : Int) (b : Board) (requests : List Int) : Board :=
  requests.foldl (fun b t => (move d b t).2) b

/-- The values of the region read in row-major order, the blank left out. -/
def tiles (d : Int) (b : Board) : List Int :=
  ((cells d).map (fun p => b p.1 p.2)).filter (fun v => decide (v ≠ 0))

/-- The number of inversions of a list: pairs of positions where a larger
value precedes a smaller one. -/
def inversions : List Int → Nat
  | [] => 0
  | x :: xs => xs.countP (fun y => decide (y < x)) + inversions xs

/-- The winning configuration as a board. -/
def winningBoard (d : Int) : Board := fun i j =>
  if i = d - 1 ∧ j = d - 1 then 0 else i * d + j + 1

/-- The winning configuration with the blank exchanged with its left
neighbour, the tile `d² - 1`. -/
def nearWinLeft (d : Int) : Board :=
  ((winningBoard d).set (d - 1) (d - 1) (d * d - 1)).set (d - 1) (d - 2) 0

/-- The winning configuration with the blank exchanged with its upper
neighbour, the tile `d² - d`. -/
def nearWinUp (d : Int) : Board :=
  ((winningBoard d).set (d - 1) (d - 1) (d * d - d)).set (d - 2) (d - 1) 0

/-! ## `draw` and the transcript of `main` -/

/-- The text `printf` and `fprintf` produce for an `int` under `%d` and `%i`:
its decimal digits, with a leading `-` when negative. -/
def fmtInt (v : Int) : String := toString v

/-- The body of the inner loop of `draw`; `out` is the text written to standard
output so far. -/
def drawCell (b : Board) (i j : Int) (out : String) : String :=
  let out1 := if b i j > 0 then out ++ (" " ++ fmtInt (b i j) ++ " ") else out
  if b i j = 0 then out1 ++ " _ " else out1

/-- The function `draw`: standard output after the call, given standard output
before it. -/
def draw (d : Int) (b : Board) (out : String) : String :=
  (idx d).foldl
    (fun out i => (idx d).foldl (fun out j => drawCell b i j out) out ++ "\n") out

/-- The globals `d` and `board` together with the text on standard output. -/
structure Game where
  d : Int
  board : Board
  out : String

/-- The function `draw` as a step on the whole state: it reads `d` and `board`
and stores into neither. -/
def Game.draw (g : Game) : Game :=
  { d := g.d, board := g.board, out := Fifteen.draw g.d g.board g.out }

/-- The body of the inner logging loop of `main`: the cell in decimal, then a
`|` unless `j` is the last column. -/
def logCell (d : Int) (b : Board) (i j : Int) (log : String) : String :=
  let log1 := log ++ fmtInt (b i j)
  if j < d - 1 then log1 ++ "|" else log1

/-- The logging loops of `main`: the log file after them, given it before. -/
def logBoard (d : Int) (b : Board) (log : String) : String :=
  (idx d).foldl
    (fun log i => (idx d).foldl (fun log j => logCell d b i j log) log ++ "\n") log

/-- The `while (1)` loop of `main` as far as the log file is concerned, as a
function of the integers `scanf` reads, the board and the log file at the start
of a turn.  When no integer is left to read the model stops after the board
lines of that turn. -/
def mainLoop (d : Int) : List Int → Board → String → String
  | [], b, log =>
    let log1 := logBoard d b log
    if won d b ≠ 0 then log1 else log1
  | tile :: rest, b, log =>
    let log1 := logBoard d b log
    if won d b ≠ 0 then log1
    else if tile = 0 then log1
    else mainLoop d rest (move d b tile).2 (log1 ++ (fmtInt tile ++ "\n"))

/-- The log file written by a run of `main` with a valid `d`: the file is
opened empty, the board is initialised, and the loop runs. -/
def sessionLog (d : Int) (inputs : List Int) : String :=
  mainLoop d inputs (init d zeroBoard) ""

/-- The text of one cell in the output of `draw`, in the words of the
specification. -/
def cellText (v : Int) : String := if v = 0 then " _ " else " " ++ fmtInt v ++ " "

/-- The text of row `i` in the output of `draw`, without its newline. -/
def rowText (d : Int) (b : Board) (i : Int) : String :=
  String.join ((idx d).map (fun j => cellText (b i j)))

/-- The line of the transcript for row `i`, without its newline: the cells in
decimal joined by `|`. -/
def logLine (d : Int) (b : Board) (i : Int) : String :=
  String.intercalate "|" ((idx d).map (fun j => fmtInt (b i j)))

/-- The board lines of one turn of the transcript. -/
def boardLines (d : Int) (b : Board) : String :=
  String.join ((idx d).map (fun i => logLine d b i ++ "\n"))

/-! ## Legal moves -/

/-- The tile values `move` would accept on board `b`: `move` rejects every
value outside `0 .. d² - 1`, so these are all of them. -/
def legalTiles (d : Int) (b : Board) : List Int :=
  ((List.range (d * d).toNat).map Int.ofNat).filter (fun t => decide ((move d b t).1 = 1))

/-- The cells of the region that are orthogonal neighbours of `(br, bc)`. -/
def neighbours (d br bc : Int) : List (Int × Int) :=
  [(br - 1, bc), (br + 1, bc), (br, bc - 1), (br, bc + 1)].filter
    (fun p => decide (InRegion d p.1 p.2))

/-! ## Board accesses

For each operation, the list of index pairs `(i, j)` of the `board[i][j]`
expressions it evaluates, reads and stores alike, in program order. -/

/-- The accesses of `init`: one store per iteration of the inner loop, then the
two stores of the swap when it is taken. -/
def initAccesses (d : Int) : List (Int × Int) :=
  (idx d).foldl (fun acc i => (idx d).foldl (fun acc j => acc ++ [(i, j)]) acc) [] ++
    (if Int.tmod (d * d - 1 + 1) 2 = 0 then [(d - 1, d - 3), (d - 1, d - 2)] else [])

/-- The accesses of one iteration of the inner loop of `draw`: the first test,
the argument of `printf` when the test holds, the second test. -/
def drawCellAccesses (b : Board) (i j : Int) : List (Int × Int) :=
  [(i, j)] ++ (if b i j > 0 then [(i, j)] else []) ++ [(i, j)]

/-- The accesses of `draw`. -/
def drawAccesses (d : Int) (b : Board) : List (Int × Int) :=
  (idx d).foldl
    (fun acc i => (idx d).foldl (fun acc j => acc ++ drawCellAccesses b i j) acc) []

/-- The accesses of `move`: none when the tile is out of range; otherwise the
two tests of every iteration of the search loops, then the two stores at the
positions the search ended with when the move is legal. -/
def moveAccesses (d : Int) (b : Board) (tile : Int) : List (Int × Int) :=
  if tile > d * d - 1 ∨ tile < 1 then
    []
  else
    let p := scan d b tile
    (idx d).foldl (fun acc i => (idx d).foldl (fun acc j => acc ++ [(i, j), (i, j)]) acc) [] ++
      (if (abs (p.row - p.blankRow) = 1 ∧ p.col = p.blankCol) ∨
          (p.row = p.blankRow ∧ abs (p.col - p.blankCol) = 1) then
        [(p.blankRow, p.blankCol), (p.row, p.col)]
      else [])

/-- The access of one iteration of the inner loop of `won`, entered in state
`s`: the comparison with `counter`, unless the function has returned or the
incremented counter equals `d * d`. -/
def wonCellAccesses (d : Int) (i j : Int) (s : WonState) : List (Int × Int) :=
  match s.ret with
  | some _ => []
  | none => if s.counter + 1 ≠ d * d then [(i, j)] else []

/-- The loops of `won` with the accesses collected alongside the state. -/
def wonTraced (d : Int) (b : Board) : WonState × List (Int × Int) :=
  (idx d).foldl
    (fun s i => (idx d).foldl
      (fun s j => (wonCell d b i j s.1, s.2 ++ wonCellAccesses d i j s.1)) s)
    ({ counter := 0, ret := none }, [])

/-- The accesses of `won`. -/
def wonAccesses (d : Int) (b : Board) : List (Int × Int) := (wonTraced d b).2

/-! ## Basic facts about the loops -/

theorem mem_idx (d i : Int) : i ∈ idx d ↔ 0 ≤ i ∧ i < d := by
  unfold idx
  simp only [List.mem_map, List.mem_range]
  constructor
  · rintro ⟨n, hn, rfl⟩
    have : (Int.ofNat n) = (n : Int) := rfl
    omega
  · rintro ⟨h0, h1⟩
    refine ⟨i.toNat, by omega, ?_⟩
    have : (Int.ofNat i.toNat) = (i.toNat : Int) := rfl
    omega

theorem mem_cells (d : Int) (p : Int × Int) : p ∈ cells d ↔ InRegion d p.1 p.2 := by
  unfold cells InRegion
  simp only [List.mem_flatMap, List.mem_map, mem_idx]
  constructor
  · rintro ⟨i, hi, j, hj, rfl⟩
    exact ⟨hi.1, hi.2, hj.1, hj.2⟩
  · rintro ⟨h1, h2, h3, h4⟩
    exact ⟨p.1, ⟨h1, h2⟩, p.2, ⟨h3, h4⟩, rfl⟩

theorem foldl_nested {σ : Type} (f : Int → Int → σ → σ) (l m : List Int) (s : σ) :
    l.foldl (fun s i => m.foldl (fun s j => f i j s) s) s =
      (l.flatMap (fun i => m.map (fun j => (i, j)))).foldl (fun s p => f p.1 p.2 s) s := by
  induction l generalizing s with
  | nil => rfl
  | cons a l ih =>
    simp only [List.foldl_cons, List.flatMap_cons, List.foldl_append, List.foldl_map]
    exact ih _

theorem abs_eq_one (x : Int) : abs x = 1 ↔ x = 1 ∨ x = -1 := by
  unfold abs
  split <;> omega

/-! ## The search loops of `move` -/

theorem scan_eq_scanList (d : Int) (b : Board) (tile : Int) :
    scan d b tile =
      scanList b tile (cells d) { row := 0, col := 0, blankRow := 0, blankCol := 0 } := by
  unfold scan scanList cells
  exact foldl_nested (fun i j p => scanCell b tile i j p) (idx d) (idx d) _

theorem scanList_tile_absent (b : Board) (tile : Int) (l : List (Int × Int)) (p : Pos)
    (h : ∀ q ∈ l, b q.1 q.2 ≠ tile) :
    (scanList b tile l p).row = p.row ∧ (scanList b tile l p).col = p.col := by
  induction l generalizing p with
  | nil => exact ⟨rfl, rfl⟩
  | cons a l ih =>
    have ha : b a.1 a.2 ≠ tile := h a (List.mem_cons_self _ _)
    have := ih (scanCell b tile a.1 a.2 p) (fun q hq => h q (List.mem_cons_of_mem _ hq))
    simp only [scanList, List.foldl_cons] at this ⊢
    rw [this.1, this.2]
    unfold scanCell
    simp only [ha, if_false]
    split <;> exact ⟨rfl, rfl⟩

theorem scanList_tile_present (b : Board) (tile : Int) (l : List (Int × Int)) (p : Pos)
    (h : ∃ q ∈ l, b q.1 q.2 = tile) :
    ∃ q ∈ l, b q.1 q.2 = tile ∧
      (scanList b tile l p).row = q.1 ∧ (scanList b tile l p).col = q.2 := by
  induction l generalizing p with
  | nil => obtain ⟨q, hq, _⟩ := h; cases hq
  | cons a l ih =>
    by_cases hl : ∃ q ∈ l, b q.1 q.2 = tile
    · obtain ⟨q, hq, h1, h2, h3⟩ := ih (scanCell b tile a.1 a.2 p) hl
      exact ⟨q, List.mem_cons_of_mem _ hq, h1, h2, h3⟩
    · have hl2 : ∀ q ∈ l, b q.1 q.2 ≠ tile := fun q hq hb => hl ⟨q, hq, hb⟩
      have ha : b a.1 a.2 = tile := by
        obtain ⟨q, hq, hb⟩ := h
        rcases List.mem_cons.1 hq with rfl | hq
        · exact hb
        · exact absurd hb (hl2 q hq)
      have := scanList_tile_absent b tile l (scanCell b tile a.1 a.2 p) hl2
      refine ⟨a, List.mem_cons_self _ _, ha, ?_⟩
      simp only [scanList, List.foldl_cons] at this ⊢
      rw [this.1, this.2]
      unfold scanCell
      simp only [ha, if_true]
      split <;> exact ⟨rfl, rfl⟩

theorem scanList_blank_absent (b : Board) (tile : Int) (l : List (Int × Int)) (p : Pos)
    (h : ∀ q ∈ l, b q.1 q.2 ≠ 0) :
    (scanList b tile l p).blankRow = p.blankRow ∧
      (scanList b tile l p).blankCol = p.blankCol := by
  induction l generalizing p with
  | nil => exact ⟨rfl, rfl⟩
  | cons a l ih =>
    have ha : b a.1 a.2 ≠ 0 := h a (List.mem_cons_self _ _)
    have := ih (scanCell b tile a.1 a.2 p) (fun q hq => h q (List.mem_cons_of_mem _ hq))
    simp only [scanList, List.foldl_cons] at this ⊢
    rw [this.1, this.2]
    unfold scanCell
    simp only [ha, if_false]
    split <;> exact ⟨rfl, rfl⟩

theorem scanList_blank_present (b : Board) (tile : Int) (l : List (Int × Int)) (p : Pos)
    (h : ∃ q ∈ l, b q.1 q.2 = 0) :
    ∃ q ∈ l, b q.1 q.2 = 0 ∧
      (scanList b tile l p).blankRow = q.1 ∧ (scanList b tile l p).blankCol = q.2 := by
  induction l generalizing p with
  | nil => obtain ⟨q, hq, _⟩ := h; cases hq
  | cons a l ih =>
    by_cases hl : ∃ q ∈ l, b q.1 q.2 = 0
    · obtain ⟨q, hq, h1, h2, h3⟩ := ih (scanCell b tile a.1 a.2 p) hl
      exact ⟨q, List.mem_cons_of_mem _ hq, h1, h2, h3⟩
    · have hl2 : ∀ q ∈ l, b q.1 q.2 ≠ 0 := fun q hq hb => hl ⟨q, hq, hb⟩
      have ha : b a.1 a.2 = 0 := by
        obtain ⟨q, hq, hb⟩ := h
        rcases List.mem_cons.1 hq with rfl | hq
        · exact hb
        · exact absurd hb (hl2 q hq)
      have := scanList_blank_absent b tile l (scanCell b tile a.1 a.2 p) hl2
      refine ⟨a, List.mem_cons_self _ _, ha, ?_⟩
      simp only [scanList, List.foldl_cons] at this ⊢
      rw [this.1, this.2]
      simp [scanCell, ha]

/-- When `tile` sits in the cell `(r, c)` of the region and nowhere else in it,
and the blank in `(br, bc)` and nowhere else, the search loops of `move` end
with exactly these coordinates. -/
theorem scan_of_unique (d : Int) (b : Board) (tile r c br bc : Int)
    (hP : InRegion d r c) (hQ : InRegion d br bc)
    (hbP : b r c = tile) (hbQ : b br bc = 0)
    (huP : ∀ i j, InRegion d i j → b i j = tile → i = r ∧ j = c)
    (huQ : ∀ i j, InRegion d i j → b i j = 0 → i = br ∧ j = bc) :
    scan d b tile = { row := r, col := c, blankRow := br, blankCol := bc } := by
  rw [scan_eq_scanList]
  obtain ⟨q, hq, hbq, h1, h2⟩ := scanList_tile_present b tile (cells d)
    { row := 0, col := 0, blankRow := 0, blankCol := 0 }
    ⟨(r, c), (mem_cells d (r, c)).2 hP, hbP⟩
  obtain ⟨q2, hq2, hbq2, h3, h4⟩ := scanList_blank_present b tile (cells d)
    { row := 0, col := 0, blankRow := 0, blankCol := 0 }
    ⟨(br, bc), (mem_cells d (br, bc)).2 hQ, hbQ⟩
  have e1 := huP q.1 q.2 ((mem_cells d q).1 hq) hbq
  have e2 := huQ q2.1 q2.2 ((mem_cells d q2).1 hq2) hbq2
  generalize scanList b tile (cells d) _ = s at h1 h2 h3 h4
  cases s
  simp only at h1 h2 h3 h4
  simp only [Pos.mk.injEq]
  exact ⟨h1.trans e1.1, h2.trans e1.2, h3.trans e2.1, h4.trans e2.2⟩

/-! ## Consequences of the invariant -/

theorem occurrences_unique (d : Int) (b : Board) (v : Int) (h : occurrences d b v = 1)
    (i j i2 j2 : Int) (h1 : InRegion d i j) (h2 : InRegion d i2 j2)
    (e1 : b i j = v) (e2 : b i2 j2 = v) : i = i2 ∧ j = j2 := by
  unfold occurrences at h
  rw [List.countP_eq_length_filter, List.length_eq_one] at h
  obtain ⟨a, ha⟩ := h
  have m1 : (i, j) ∈ (cells d).filter (fun p => decide (b p.1 p.2 = v)) := by
    rw [List.mem_filter]; exact ⟨(mem_cells d (i, j)).2 h1, by simpa using e1⟩
  have m2 : (i2, j2) ∈ (cells d).filter (fun p => decide (b p.1 p.2 = v)) := by
    rw [List.mem_filter]; exact ⟨(mem_cells d (i2, j2)).2 h2, by simpa using e2⟩
  rw [ha, List.mem_singleton] at m1 m2
  have := m1.trans m2.symm
  exact ⟨congrArg Prod.fst this, congrArg Prod.snd this⟩

theorem occurrences_exists (d : Int) (b : Board) (v : Int) (h : occurrences d b v = 1) :
    ∃ i j, InRegion d i j ∧ b i j = v := by
  unfold occurrences at h
  have hpos : 0 < (cells d).countP (fun p => decide (b p.1 p.2 = v)) := by omega
  obtain ⟨p, hp, hv⟩ := List.countP_pos_iff.1 hpos
  exact ⟨p.1, p.2, (mem_cells d p).1 hp, by simpa using hv⟩

theorem Invariant.occ {d : Int} {b : Board} (h : Invariant d b) (v : Int)
    (h0 : 0 ≤ v) (h1 : v < d * d) : occurrences d b v = 1 := by
  have := h v.toNat (List.mem_range.2 (by omega))
  have e : Int.ofNat v.toNat = v := by
    show ((v.toNat : Nat) : Int) = v
    omega
  rwa [e] at this

/-- The result of `move` when the tile and the blank each occupy one known
cell of the region and no other. -/
theorem move_of_unique (d : Int) (b : Board) (tile r c br bc : Int)
    (ht : 1 ≤ tile ∧ tile ≤ d * d - 1)
    (hP : InRegion d r c) (hQ : InRegion d br bc)
    (hbP : b r c = tile) (hbQ : b br bc = 0)
    (huP : ∀ i j, InRegion d i j → b i j = tile → i = r ∧ j = c)
    (huQ : ∀ i j, InRegion d i j → b i j = 0 → i = br ∧ j = bc) :
    move d b tile =
      if Adjacent r c br bc then (1, (b.set br bc tile).set r c 0) else (0, b) := by
  have hs := scan_of_unique d b tile r c br bc hP hQ hbP hbQ huP huQ
  have hr : ¬ (tile > d * d - 1 ∨ tile < 1) := by omega
  unfold move
  rw [if_neg hr]
  simp only [hs, abs_eq_one]
  have key : ((r - br = 1 ∨ r - br = -1) ∧ c = bc ∨ r = br ∧ (c - bc = 1 ∨ c - bc = -1)) ↔
      Adjacent r c br bc := by
    unfold Adjacent
    omega
  by_cases ha : Adjacent r c br bc
  · rw [if_pos (key.2 ha), if_pos ha]
  · rw [if_neg (fun h => ha (key.1 h)), if_neg ha]

/-- Under the invariant, the result of `move` for a tile in range, in terms of
the cell holding the tile and the cell holding the blank. -/
theorem move_of_invariant (d : Int) (b : Board) (hb : Invariant d b) (tile r c br bc : Int)
    (ht : 1 ≤ tile ∧ tile ≤ d * d - 1)
    (hP : InRegion d r c) (hQ : InRegion d br bc)
    (hbP : b r c = tile) (hbQ : b br bc = 0) :
    move d b tile =
      if Adjacent r c br bc then (1, (b.set br bc tile).set r c 0) else (0, b) := by
  have hd : 0 < d := by unfold InRegion at hP; omega
  have hdd : 0 < d * d := Int.mul_pos hd hd
  apply move_of_unique d b tile r c br bc ht hP hQ hbP hbQ
  · intro i j hij e
    exact occurrences_unique d b tile (hb.occ tile (by omega) (by omega)) i j r c hij hP e hbP
  · intro i j hij e
    exact occurrences_unique d b 0 (hb.occ 0 (by omega) (by omega)) i j br bc hij hQ e hbQ

theorem move_fst_zero_or_one (d : Int) (b : Board) (tile : Int) :
    (move d b tile).1 = 1 ∨ (move d b tile).1 = 0 := by
  unfold move
  split
  · exact Or.inr rfl
  · simp only
    split
    · exact Or.inl rfl
    · exact Or.inr rfl

theorem Board.set_apply (b : Board) (i j v r c : Int) :
    b.set i j v r c = if r = i ∧ c = j then v else b r c := rfl

/-- Exchanging the tile and the blank keeps the invariant. -/
theorem invariant_swap (d : Int) (b : Board) (hb : Invariant d b) (tile r c br bc : Int)
    (ht : 1 ≤ tile ∧ tile ≤ d * d - 1)
    (hP : InRegion d r c) (hQ : InRegion d br bc)
    (hbP : b r c = tile) (hbQ : b br bc = 0) :
    Invariant d ((b.set br bc tile).set r c 0) := by
  have uP : ∀ i j, InRegion d i j → b i j = tile → i = r ∧ j = c := fun i j hij e =>
    occurrences_unique d b tile (hb.occ tile (by omega) (by omega)) i j r c hij hP e hbP
  have uQ : ∀ i j, InRegion d i j → b i j = 0 → i = br ∧ j = bc := fun i j hij e =>
    occurrences_unique d b 0 (hb.occ 0 (by omega) (by omega)) i j br bc hij hQ e hbQ
  intro v hv
  have hv1 := hb v hv
  generalize Int.ofNat v = w at hv1 ⊢
  have o0 := hb.occ 0 (by omega) (by omega)
  have ot := hb.occ tile (by omega) (by omega)
  unfold occurrences at hv1 o0 ot ⊢
  by_cases hw : w = tile
  · subst hw
    rw [← o0]
    apply List.countP_congr
    intro p hp
    have hp2 := (mem_cells d p).1 hp
    simp only [Board.set_apply, decide_eq_true_eq]
    by_cases e1 : p.1 = r ∧ p.2 = c
    · rw [if_pos e1]
      have : b p.1 p.2 = b r c := by rw [e1.1, e1.2]
      omega
    · rw [if_neg e1]
      by_cases e2 : p.1 = br ∧ p.2 = bc
      · rw [if_pos e2]
        have : b p.1 p.2 = 0 := by rw [e2.1, e2.2]; exact hbQ
        simp [this]
      · rw [if_neg e2]
        exact ⟨fun h => absurd (uP _ _ hp2 h) e1, fun h => absurd (uQ _ _ hp2 h) e2⟩
  · by_cases hw0 : w = 0
    · subst hw0
      rw [← ot]
      apply List.countP_congr
      intro p hp
      have hp2 := (mem_cells d p).1 hp
      simp only [Board.set_apply, decide_eq_true_eq]
      by_cases e1 : p.1 = r ∧ p.2 = c
      · rw [if_pos e1]
        have : b p.1 p.2 = b r c := by rw [e1.1, e1.2]
        simp [this, hbP]
      · rw [if_neg e1]
        by_cases e2 : p.1 = br ∧ p.2 = bc
        · rw [if_pos e2]
          have : b p.1 p.2 = 0 := by rw [e2.1, e2.2]; exact hbQ
          omega
        · rw [if_neg e2]
          exact ⟨fun h => absurd (uQ _ _ hp2 h) e2, fun h => absurd (uP _ _ hp2 h) e1⟩
    · rw [← hv1]
      apply List.countP_congr
      intro p _
      simp only [Board.set_apply, decide_eq_true_eq]
      by_cases e1 : p.1 = r ∧ p.2 = c
      · rw [if_pos e1]
        have : b p.1 p.2 = b r c := by rw [e1.1, e1.2]
        omega
      · rw [if_neg e1]
        by_cases e2 : p.1 = br ∧ p.2 = bc
        · rw [if_pos e2]
          have : b p.1 p.2 = 0 := by rw [e2.1, e2.2]; exact hbQ
          omega
        · rw [if_neg e2]

/-- The function `move` keeps the invariant, whatever it is asked to move. -/
theorem move_invariant (d : Int) (b : Board) (hb : Invariant d b) (tile : Int) :
    Invariant d (move d b tile).2 := by
  by_cases hr : tile > d * d - 1 ∨ tile < 1
  · unfold move
    rw [if_pos hr]
    exact hb
  · have ht : 1 ≤ tile ∧ tile ≤ d * d - 1 := by omega
    obtain ⟨r, c, hP, hbP⟩ := occurrences_exists d b tile (hb.occ tile (by omega) (by omega))
    obtain ⟨br, bc, hQ, hbQ⟩ := occurrences_exists d b 0 (hb.occ 0 (by omega) (by omega))
    rw [move_of_invariant d b hb tile r c br bc ht hP hQ hbP hbQ]
    split
    · exact invariant_swap d b hb tile r c br bc ht hP hQ hbP hbQ
    · exact hb

theorem length_idx (d : Int) : (idx d).length = d.toNat := by
  simp [idx]

theorem length_cells (d : Int) : (cells d).length = d.toNat * d.toNat := by
  unfold cells
  rw [← length_idx d]
  generalize idx d = m
  have : ∀ l : List Int, (l.flatMap (fun i => m.map (fun j => (i, j)))).length =
      l.length * m.length := by
    intro l
    induction l with
    | nil => simp
    | cons a l ih =>
      simp only [List.flatMap_cons, List.length_append, List.length_map, ih, List.length_cons]
      ring
  rw [this]

theorem sum_countP_eq {α : Type} (f : α → Int) (n : Nat) (l : List α) :
    ∑ v in Finset.range n, l.countP (fun p => decide (f p = Int.ofNat v)) =
      l.countP (fun p => decide (0 ≤ f p ∧ f p < n)) := by
  induction l with
  | nil => simp
  | cons a l ih =>
    simp only [List.countP_cons, Finset.sum_add_distrib, ih, decide_eq_true_eq]
    congr 1
    by_cases h : 0 ≤ f a ∧ f a < n
    · rw [if_pos h, Finset.sum_eq_single (f a).toNat]
      · have : f a = Int.ofNat (f a).toNat := by
          show f a = (((f a).toNat : Nat) : Int)
          omega
        rw [if_pos this]
      · intro v _ hv
        have : ¬ f a = Int.ofNat v := by
          show ¬ f a = ((v : Nat) : Int)
          omega
        rw [if_neg this]
      · intro hv
        exact absurd (Finset.mem_range.2 (by omega)) hv
    · rw [if_neg h]
      apply Finset.sum_eq_zero
      intro v hv
      have hv2 := Finset.mem_range.1 hv
      have : ¬ f a = Int.ofNat v := by
        show ¬ f a = ((v : Nat) : Int)
        omega
      rw [if_neg this]

/-- Under the invariant every cell of the region holds one of `0, .., d² - 1`. -/
theorem Invariant.cell_range {d : Int} {b : Board} (hb : Invariant d b) (i j : Int)
    (hij : InRegion d i j) : 0 ≤ b i j ∧ b i j < d * d := by
  have hd : 0 < d := by unfold InRegion at hij; omega
  have hsum := sum_countP_eq (fun p : Int × Int => b p.1 p.2) (d * d).toNat (cells d)
  have h1 : ∀ v ∈ Finset.range (d * d).toNat,
      (cells d).countP (fun p => decide (b p.1 p.2 = Int.ofNat v)) = 1 := by
    intro v hv
    exact hb v (List.mem_range.2 (Finset.mem_range.1 hv))
  rw [Finset.sum_congr rfl h1] at hsum
  simp only [Finset.sum_const, Finset.card_range, smul_eq_mul, mul_one] at hsum
  have hlen : (cells d).length = (d * d).toNat := by
    rw [length_cells]
    have e : d = ((d.toNat : Nat) : Int) := by omega
    have e2 : d * d = ((d.toNat * d.toNat : Nat) : Int) := by
      rw [Nat.cast_mul, ← e]
    rw [e2, Int.toNat_ofNat]
  rw [← hlen] at hsum
  have hall := List.countP_eq_length.1 hsum.symm (i, j) ((mem_cells d (i, j)).2 hij)
  simp only [decide_eq_true_eq] at hall
  have hdd : 0 ≤ d * d := Int.mul_nonneg (by omega) (by omega)
  rw [hlen] at hall
  omega

/-! ## `move`: legality, effect and failure -/

/-- C1: for `d` in `[3, 9]`, a board satisfying the invariant and any integer
`tile`, `move` returns 1 exactly when `tile` lies in `[1, d² - 1]` and the cell
holding it is an orthogonal neighbour of the cell holding the blank (same row
with columns one apart, or same column with rows one apart); in every other
case it returns 0. -/
theorem move_returns_one_iff_adjacent (d : Int) (hd : DIM_MIN ≤ d ∧ d ≤ DIM_MAX)
    (b : Board) (hb : Invariant d b) (tile : Int) :
    ((move d b tile).1 = 1 ↔
      (1 ≤ tile ∧ tile ≤ d * d - 1 ∧
        ∃ r c br bc, InRegion d r c ∧ InRegion d br bc ∧ b r c = tile ∧ b br bc = 0 ∧
          Adjacent r c br bc)) ∧
    ((move d b tile).1 ≠ 1 → (move d b tile).1 = 0) := by
  refine ⟨?_, fun h => (move_fst_zero_or_one d b tile).resolve_left h⟩
  by_cases hr : tile > d * d - 1 ∨ tile < 1
  · have : (move d b tile).1 = 0 := by
      unfold move
      rw [if_pos hr]
    rw [this]
    constructor
    · intro h; omega
    · rintro ⟨h1, h2, _⟩; omega
  · have ht : 1 ≤ tile ∧ tile ≤ d * d - 1 := by omega
    have ot := hb.occ tile (by omega) (by omega)
    have o0 := hb.occ 0 (by omega) (by omega)
    obtain ⟨r, c, hP, hbP⟩ := occurrences_exists d b tile ot
    obtain ⟨br, bc, hQ, hbQ⟩ := occurrences_exists d b 0 o0
    rw [move_of_invariant d b hb tile r c br bc ht hP hQ hbP hbQ]
    constructor
    · intro h
      by_cases ha : Adjacent r c br bc
      · exact ⟨ht.1, ht.2, r, c, br, bc, hP, hQ, hbP, hbQ, ha⟩
      · rw [if_neg ha] at h
        simp at h
    · rintro ⟨_, _, r2, c2, br2, bc2, hP2, hQ2, hbP2, hbQ2, ha⟩
      have e1 := occurrences_unique d b tile ot r2 c2 r c hP2 hP hbP2 hbP
      have e2 := occurrences_unique d b 0 o0 br2 bc2 br bc hQ2 hQ hbQ2 hbQ
      rw [e1.1, e1.2, e2.1, e2.2] at ha
      rw [if_pos ha]

/-- C2: for `d` in `[3, 9]` and a board satisfying the invariant, moving a tile
whose cell `(r, c)` is an orthogonal neighbour of the blank's cell `(br, bc)`
returns 1; afterwards the blank's old cell holds the tile, the tile's old cell
holds 0, both of these cells have changed, and every other cell is as before. -/
theorem move_adjacent_exchanges_two_cells (d : Int) (hd : DIM_MIN ≤ d ∧ d ≤ DIM_MAX)
    (b : Board) (hb : Invariant d b) (tile r c br bc : Int)
    (hP : InRegion d r c) (hQ : InRegion d br bc)
    (hbP : b r c = tile) (hbQ : b br bc = 0) (hadj : Adjacent r c br bc) :
    (move d b tile).1 = 1 ∧
    (move d b tile).2 br bc = tile ∧ (move d b tile).2 r c = 0 ∧
    (move d b tile).2 br bc ≠ b br bc ∧ (move d b tile).2 r c ≠ b r c ∧
    (∀ i j, ¬ (i = r ∧ j = c) → ¬ (i = br ∧ j = bc) → (move d b tile).2 i j = b i j) := by
  have hne : ¬ (br = r ∧ bc = c) := by unfold Adjacent at hadj; omega
  have hrange := hb.cell_range r c hP
  rw [hbP] at hrange
  have hd0 : 0 < d := by unfold InRegion at hP; omega
  have hdd : 0 < d * d := Int.mul_pos hd0 hd0
  have ht0 : tile ≠ 0 := by
    intro h0
    have := occurrences_unique d b 0 (hb.occ 0 (by omega) hdd) br bc r c hQ hP hbQ (by omega)
    exact hne this
  have ht : 1 ≤ tile ∧ tile ≤ d * d - 1 := by omega
  rw [move_of_invariant d b hb tile r c br bc ht hP hQ hbP hbQ, if_pos hadj]
  refine ⟨rfl, ?_, ?_, ?_, ?_, ?_⟩
  · show ((b.set br bc tile).set r c 0) br bc = tile
    rw [Board.set_apply, if_neg hne, Board.set_apply, if_pos ⟨rfl, rfl⟩]
  · show ((b.set br bc tile).set r c 0) r c = 0
    rw [Board.set_apply, if_pos ⟨rfl, rfl⟩]
  · show ((b.set br bc tile).set r c 0) br bc ≠ b br bc
    rw [Board.set_apply, if_neg hne, Board.set_apply, if_pos ⟨rfl, rfl⟩, hbQ]
    exact ht0
  · show ((b.set br bc tile).set r c 0) r c ≠ b r c
    rw [Board.set_apply, if_pos ⟨rfl, rfl⟩, hbP]
    exact fun h => ht0 h.symm
  · intro i j h1 h2
    show ((b.set br bc tile).set r c 0) i j = b i j
    rw [Board.set_apply, if_neg h1, Board.set_apply, if_neg h2]

/-- C3: for `d` in `[3, 9]`, any board contents and any integer `tile`, when
`move` returns 0 the board after the call equals the board before it in every
cell. -/
theorem move_returns_zero_board_unchanged (d : Int) (hd : DIM_MIN ≤ d ∧ d ≤ DIM_MAX)
    (b : Board) (tile : Int) (h : (move d b tile).1 = 0) :
    ∀ i j, (move d b tile).2 i j = b i j := by
  intro i j
  unfold move at h ⊢
  split
  · rfl
  · rename_i hr
    rw [if_neg hr] at h
    simp only at h ⊢
    split
    · rename_i ha
      rw [if_pos ha] at h
      simp at h
    · rfl

/-- C4: for `d` in `[3, 9]` and any board, a `tile` below 1 or above `d² - 1`
(so 0, `d * d` and every negative number) makes `move` return 0 and leave every
cell of the board as it was. -/
theorem move_out_of_range_rejected (d : Int) (hd : DIM_MIN ≤ d ∧ d ≤ DIM_MAX)
    (b : Board) (tile : Int) (h : tile < 1 ∨ tile > d * d - 1) :
    (move d b tile).1 = 0 ∧ ∀ i j, (move d b tile).2 i j = b i j := by
  have hr : tile > d * d - 1 ∨ tile < 1 := h.symm
  unfold move
  rw [if_pos hr]
  exact ⟨rfl, fun _ _ => rfl⟩

/-! ## The loops of `won` -/

theorem wonCell_of_returned (d : Int) (b : Board) (i j : Int) (s : WonState) (r : Int)
    (h : s.ret = some r) : wonCell d b i j s = s := by
  unfold wonCell
  rw [h]

theorem wonCell_of_running (d : Int) (b : Board) (i j c : Int) :
    wonCell d b i j { counter := c, ret := none } =
      if c + 1 ≠ d * d ∧ b i j ≠ c + 1 then { counter := c + 1, ret := some 0 }
      else { counter := c + 1, ret := none } := by
  unfold wonCell
  simp only
  by_cases h1 : c + 1 ≠ d * d
  · by_cases h2 : b i j ≠ c + 1
    · rw [if_pos h1, if_pos h2, if_pos ⟨h1, h2⟩]
    · rw [if_pos h1, if_neg h2, if_neg (fun h => h2 h.2)]
  · rw [if_neg h1, if_neg (fun h => h1 h.1)]

/-- The inner loop of `won` on row `i`, entered with `counter = c0`, after its
first `m` iterations. -/
theorem wonRow_spec (d : Int) (b : Board) (i c0 : Int) (m : Nat) :
    ((∀ j : Nat, j < m → c0 + j + 1 ≠ d * d → b i j = c0 + j + 1) →
      ((List.range m).map Int.ofNat).foldl (fun s j => wonCell d b i j s)
        { counter := c0, ret := none } = { counter := c0 + m, ret := none }) ∧
    (¬ (∀ j : Nat, j < m → c0 + j + 1 ≠ d * d → b i j = c0 + j + 1) →
      (((List.range m).map Int.ofNat).foldl (fun s j => wonCell d b i j s)
        { counter := c0, ret := none }).ret = some 0) := by
  induction m with
  | zero =>
    constructor
    · intro _; simp
    · intro h; exact absurd (fun j hj => absurd hj (Nat.not_lt_zero j)) h
  | succ m ih =>
    rw [List.range_succ, List.map_append, List.foldl_append]
    simp only [List.map_cons, List.map_nil, List.foldl_cons, List.foldl_nil]
    have hm : Int.ofNat m = (m : Int) := rfl
    by_cases hall : ∀ j : Nat, j < m → c0 + j + 1 ≠ d * d → b i j = c0 + j + 1
    · rw [ih.1 hall, wonCell_of_running, hm]
      constructor
      · intro h
        have hlast := h m (Nat.lt_succ_self m)
        rw [if_neg (fun hc => hc.2 (hlast hc.1))]
        congr 1
        push_cast
        ring
      · intro h
        have hbad : c0 + m + 1 ≠ d * d ∧ b i m ≠ c0 + m + 1 := by
          by_contra hc
          apply h
          intro j hj hne
          rcases Nat.lt_succ_iff_lt_or_eq.1 hj with hj | rfl
          · exact hall j hj hne
          · by_contra hb
            exact hc ⟨hne, hb⟩
        rw [if_pos hbad]
    · have hret := ih.2 hall
      rw [wonCell_of_returned d b i _ _ 0 hret]
      constructor
      · intro h
        exact absurd (fun j hj => h j (Nat.lt_succ_of_lt hj)) hall
      · intro _
        exact hret

theorem wonRow_of_returned (d : Int) (b : Board) (i : Int) (l : List Int) (s : WonState)
    (r : Int) (h : s.ret = some r) :
    l.foldl (fun s j => wonCell d b i j s) s = s := by
  induction l with
  | nil => rfl
  | cons a l ih =>
    rw [List.foldl_cons, wonCell_of_returned d b i a s r h]
    exact ih

/-- The outer loop of `won` after its first `m` iterations, each row having
`n` columns. -/
theorem wonRows_spec (d : Int) (b : Board) (n m : Nat) (hn : (n : Int) = d) :
    ((∀ i j : Nat, i < m → j < n → (i : Int) * d + j + 1 ≠ d * d →
        b i j = (i : Int) * d + j + 1) →
      ((List.range m).map Int.ofNat).foldl
        (fun s i => ((List.range n).map Int.ofNat).foldl (fun s j => wonCell d b i j s) s)
        { counter := 0, ret := none } = { counter := (m : Int) * d, ret := none }) ∧
    (¬ (∀ i j : Nat, i < m → j < n → (i : Int) * d + j + 1 ≠ d * d →
        b i j = (i : Int) * d + j + 1) →
      (((List.range m).map Int.ofNat).foldl
        (fun s i => ((List.range n).map Int.ofNat).foldl (fun s j => wonCell d b i j s) s)
        { counter := 0, ret := none }).ret = some 0) := by
  induction m with
  | zero =>
    constructor
    · intro _; simp
    · intro h; exact absurd (fun i j hi => absurd hi (Nat.not_lt_zero i)) h
  | succ m ih =>
    rw [List.range_succ, List.map_append, List.foldl_append]
    simp only [List.map_cons, List.map_nil, List.foldl_cons, List.foldl_nil]
    have hm : Int.ofNat m = (m : Int) := rfl
    by_cases hall : ∀ i j : Nat, i < m → j < n → (i : Int) * d + j + 1 ≠ d * d →
        b i j = (i : Int) * d + j + 1
    · rw [ih.1 hall, hm]
      have hrow := wonRow_spec d b (m : Int) ((m : Int) * d) n
      by_cases hlast : ∀ j : Nat, j < n → (m : Int) * d + j + 1 ≠ d * d →
          b m j = (m : Int) * d + j + 1
      · rw [hrow.1 hlast]
        constructor
        · intro _
          congr 1
          push_cast
          rw [hn]
          ring
        · intro h
          exfalso
          apply h
          intro i j hi hj hne
          rcases Nat.lt_succ_iff_lt_or_eq.1 hi with hi | rfl
          · exact hall i j hi hj hne
          · exact hlast j hj hne
      · constructor
        · intro h
          exact absurd (fun j hj => h m j (Nat.lt_succ_self m) hj) hlast
        · intro _
          exact hrow.2 hlast
    · have hret := ih.2 hall
      rw [wonRow_of_returned d b _ _ _ 0 hret]
      constructor
      · intro h
        exact absurd (fun i j hi => h i j (Nat.lt_succ_of_lt hi)) hall
      · intro _
        exact hret

theorem won_spec (d : Int) (hd : 0 ≤ d) (b : Board) :
    (FirstCellsAscending d b → won d b = 1) ∧ (¬ FirstCellsAscending d b → won d b = 0) := by
  have hn : ((d.toNat : Nat) : Int) = d := by omega
  have hspec := wonRows_spec d b d.toNat d.toNat hn
  have hiff : FirstCellsAscending d b ↔
      (∀ i j : Nat, i < d.toNat → j < d.toNat → (i : Int) * d + j + 1 ≠ d * d →
        b i j = (i : Int) * d + j + 1) := by
    unfold FirstCellsAscending InRegion
    constructor
    · intro h i j hi hj hne
      exact h i j ⟨by omega, by omega, by omega, by omega⟩ hne
    · intro h i j hij hne
      have := h i.toNat j.toNat (by omega) (by omega)
      have ei : ((i.toNat : Nat) : Int) = i := by omega
      have ej : ((j.toNat : Nat) : Int) = j := by omega
      rw [ei, ej] at this
      exact this hne
  unfold won wonScan idx
  constructor
  · intro h
    rw [hspec.1 (hiff.1 h)]
  · intro h
    rw [hspec.2 (fun h2 => h (hiff.2 h2))]

theorem last_cell_iff (d i j : Int) (h : InRegion d i j) :
    i * d + j + 1 = d * d ↔ i = d - 1 ∧ j = d - 1 := by
  unfold InRegion at h
  constructor
  · intro e
    have h1 : i * d ≤ (d - 1) * d := Int.mul_le_mul_of_nonneg_right (by omega) (by omega)
    by_cases hi : i = d - 1
    · subst hi
      have : (d - 1) * d = d * d - d := by ring
      omega
    · have h2 : i * d ≤ (d - 2) * d := Int.mul_le_mul_of_nonneg_right (by omega) (by omega)
      have : (d - 2) * d = d * d - 2 * d := by ring
      omega
  · rintro ⟨rfl, rfl⟩
    ring

/-- C5: for `d` in `[3, 9]` and a board satisfying the invariant, `won`
returns 1 exactly when the board is the winning configuration (row-major,
the k-th cell holds k for k up to `d² - 1`, and the final cell holds 0); in
every other case it returns 0. -/
theorem won_iff_winning_configuration (d : Int) (hd : DIM_MIN ≤ d ∧ d ≤ DIM_MAX)
    (b : Board) (hb : Invariant d b) :
    (won d b = 1 ↔ IsWinning d b) ∧ (won d b ≠ 1 → won d b = 0) := by
  have hd3 : 3 ≤ d := hd.1
  have hdd : 0 < d * d := Int.mul_pos (by omega) (by omega)
  have hs := won_spec d (by omega) b
  have hiff : won d b = 1 ↔ FirstCellsAscending d b := by
    constructor
    · intro h
      by_contra hc
      rw [hs.2 hc] at h
      omega
    · exact hs.1
  refine ⟨?_, ?_⟩
  · rw [hiff]
    constructor
    · intro h
      refine ⟨fun i j hij hne => h i j hij (fun e => hne ((last_cell_iff d i j hij).1 e)), ?_⟩
      obtain ⟨i, j, hij, e⟩ := occurrences_exists d b 0 (hb.occ 0 (by omega) hdd)
      by_cases hl : i = d - 1 ∧ j = d - 1
      · obtain ⟨rfl, rfl⟩ := hl; exact e
      · have := h i j hij (fun e2 => hl ((last_cell_iff d i j hij).1 e2))
        have h1 : 0 ≤ i * d := Int.mul_nonneg hij.1 (by omega)
        have := hij.2.2.1
        omega
    · intro h i j hij hne
      exact h.1 i j hij (fun e => hne ((last_cell_iff d i j hij).2 e))
  · intro h
    by_cases hc : FirstCellsAscending d b
    · exact absurd (hs.1 hc) h
    · exact hs.2 hc

/-! ## The loops of `init` -/

/-- The inner loop of `init` on row `i`, entered with `count = c0`, after its
first `m` iterations. -/
theorem initRow_spec (ds i c0 : Int) (b : Board) (m : Nat) :
    ((List.range m).map Int.ofNat).foldl (fun s j => initCell ds i j s) (b, c0) =
      ((fun (r c : Int) => if r = i ∧ 0 ≤ c ∧ c < (m : Int) then ds - (c0 + c) else b r c),
        c0 + (m : Int)) := by
  induction m with
  | zero =>
    simp only [List.range_zero, List.map_nil, List.foldl_nil]
    congr 1
    · funext r c
      rw [if_neg (by omega)]
    · simp
  | succ m ih =>
    rw [List.range_succ, List.map_append, List.foldl_append, ih]
    simp only [List.map_cons, List.map_nil, List.foldl_cons, List.foldl_nil, initCell]
    have hm : Int.ofNat m = (m : Int) := rfl
    rw [hm]
    congr 1
    · funext r c
      simp only [Board.set_apply]
      push_cast
      by_cases h1 : r = i ∧ c = m
      · rw [if_pos h1, if_pos (by omega)]
        omega
      · rw [if_neg h1]
        by_cases h2 : r = i ∧ 0 ≤ c ∧ c < m
        · rw [if_pos h2, if_pos (by omega)]
        · rw [if_neg h2, if_neg (by omega)]
    · push_cast
      ring

/-- The outer loop of `init` after its first `m` iterations, each row having
`n` columns. -/
theorem initRows_spec (ds d : Int) (b : Board) (n m : Nat) (hn : (n : Int) = d) :
    ((List.range m).map Int.ofNat).foldl
        (fun s i => ((List.range n).map Int.ofNat).foldl (fun s j => initCell ds i j s) s)
        (b, 0) =
      ((fun (r c : Int) => if 0 ≤ r ∧ r < (m : Int) ∧ 0 ≤ c ∧ c < d then ds - (r * d + c)
          else b r c),
        (m : Int) * d) := by
  induction m with
  | zero =>
    simp only [List.range_zero, List.map_nil, List.foldl_nil]
    congr 1
    · funext r c
      rw [if_neg (by omega)]
    · simp
  | succ m ih =>
    rw [List.range_succ, List.map_append, List.foldl_append, ih]
    simp only [List.map_cons, List.map_nil, List.foldl_cons, List.foldl_nil]
    have hm : Int.ofNat m = (m : Int) := rfl
    rw [hm, initRow_spec]
    congr 1
    · funext r c
      rw [hn]
      push_cast
      by_cases h1 : r = m ∧ 0 ≤ c ∧ c < d
      · rw [if_pos h1, if_pos (by omega), h1.1]
      · rw [if_neg h1]
        by_cases h2 : 0 ≤ r ∧ r < m ∧ 0 ≤ c ∧ c < d
        · rw [if_pos h2, if_pos (by omega)]
        · rw [if_neg h2, if_neg (by omega)]
    · rw [hn]
      push_cast
      ring

theorem initFill_apply (d : Int) (hd : 0 ≤ d) (b : Board) (i j : Int) (h : InRegion d i j) :
    (initFill d b).1 i j = d * d - 1 - (i * d + j) := by
  have hn : ((d.toNat : Nat) : Int) = d := by omega
  unfold initFill idx
  simp only
  rw [initRows_spec (d * d - 1) d b d.toNat d.toNat hn]
  simp only
  unfold InRegion at h
  rw [if_pos (by omega)]

/-- The value `init` leaves in a cell of the region. -/
theorem init_apply (d : Int) (hd : 3 ≤ d) (b : Board) (i j : Int) (h : InRegion d i j) :
    init d b i j =
      if d % 2 = 0 ∧ i = d - 1 ∧ j = d - 3 then 1
      else if d % 2 = 0 ∧ i = d - 1 ∧ j = d - 2 then 2
      else d * d - 1 - (i * d + j) := by
  have hpar : Int.tmod (d * d - 1 + 1) 2 = 0 ↔ d % 2 = 0 := by
    have e : d * d - 1 + 1 = d * d := by ring
    rw [e, Int.tmod_eq_emod (Int.mul_nonneg (by omega) (by omega)) (by omega)]
    rcases Int.emod_two_eq d with h0 | h1
    · simp [Int.mul_emod, h0]
    · simp [Int.mul_emod, h1]
  unfold init
  by_cases hev : d % 2 = 0
  · rw [if_pos (hpar.2 hev), Board.set_apply, Board.set_apply, initFill_apply d (by omega) b i j h]
    by_cases h2 : i = d - 1 ∧ j = d - 2
    · rw [if_pos h2, if_neg (by omega), if_pos ⟨hev, h2⟩]
    · rw [if_neg h2]
      by_cases h1 : i = d - 1 ∧ j = d - 3
      · rw [if_pos h1, if_pos ⟨hev, h1⟩]
      · rw [if_neg h1, if_neg (fun h => h1 h.2), if_neg (fun h => h2 h.2)]
  · rw [if_neg (fun h => hev (hpar.1 h)), initFill_apply d (by omega) b i j h,
      if_neg (fun h => hev h.1), if_neg (fun h => hev h.1)]

theorem occurrences_congr (d : Int) (b1 b2 : Board) (v : Int)
    (h : ∀ i j, InRegion d i j → b1 i j = b2 i j) :
    occurrences d b1 v = occurrences d b2 v := by
  unfold occurrences
  apply List.countP_congr
  intro p hp
  rw [h p.1 p.2 ((mem_cells d p).1 hp)]

theorem invariant_congr (d : Int) (b1 b2 : Board)
    (h : ∀ i j, InRegion d i j → b1 i j = b2 i j) (h2 : Invariant d b2) :
    Invariant d b1 := by
  intro v hv
  rw [occurrences_congr d b1 b2 _ h]
  exact h2 v hv

set_option maxRecDepth 100000 in
theorem invariant_startBoard (d : Int) (h3 : 3 ≤ d) (h9 : d ≤ 9) :
    Invariant d (startBoard d) := by
  interval_cases d <;> decide

theorem init_eq_startBoard (d : Int) (hd : 3 ≤ d) (b : Board) (i j : Int)
    (h : InRegion d i j) : init d b i j = startBoard d i j :=
  init_apply d hd b i j h

theorem invariant_init (d : Int) (h3 : 3 ≤ d) (h9 : d ≤ 9) (b : Board) :
    Invariant d (init d b) :=
  invariant_congr d (init d b) (startBoard d) (init_eq_startBoard d h3 b)
    (invariant_startBoard d h3 h9)

theorem invariant_play (d : Int) (requests : List Int) (b : Board) (hb : Invariant d b) :
    Invariant d (play d b requests) := by
  induction requests generalizing b with
  | nil => exact hb
  | cons t ts ih => exact ih (move d b t).2 (move_invariant d b hb t)

theorem rows_congr (d : Int) (b1 b2 : Board)
    (h : ∀ i j, InRegion d i j → b1 i j = b2 i j) : rows d b1 = rows d b2 := by
  unfold rows
  apply List.map_congr_left
  intro i hi
  apply List.map_congr_left
  intro j hj
  rw [mem_idx] at hi hj
  exact h i j ⟨hi.1, hi.2, hj.1, hj.2⟩

/-! ## `init`: the starting arrangement -/

/-- C6: for `d` in `[3, 9]` and any finite sequence of requested tiles (legal,
illegal or out of range), the board reached by `init` followed by `move` on
each request in order has exactly one cell of the region equal to 0 and holds
each of `1, .., d² - 1` in exactly one cell of the region. -/
theorem invariant_maintained_by_session (d : Int) (hd : DIM_MIN ≤ d ∧ d ≤ DIM_MAX)
    (b0 : Board) (requests : List Int) :
    occurrences d (play d (init d b0) requests) 0 = 1 ∧
    ∀ v, 1 ≤ v → v ≤ d * d - 1 → occurrences d (play d (init d b0) requests) v = 1 := by
  have h3 : 3 ≤ d := hd.1
  have h9 : d ≤ 9 := hd.2
  have hdd : 0 < d * d := Int.mul_pos (by omega) (by omega)
  have hinv := invariant_play d requests (init d b0) (invariant_init d h3 h9 b0)
  exact ⟨hinv.occ 0 (by omega) hdd, fun v h1 h2 => hinv.occ v (by omega) (by omega)⟩

/-- C7: for `d` in `[3, 9]`, the region of the board produced by `init` holds
each of the integers `0, .., d² - 1` in exactly one cell. -/
theorem init_each_value_once (d : Int) (hd : DIM_MIN ≤ d ∧ d ≤ DIM_MAX) (b0 : Board) :
    ∀ v, 0 ≤ v → v ≤ d * d - 1 → occurrences d (init d b0) v = 1 := by
  intro v h0 h1
  exact (invariant_init d hd.1 hd.2 b0).occ v h0 (by omega)

/-- C8: for `d` in `[3, 9]`, `init` leaves `d² - 1 - (i·d + j)` in cell
`(i, j)` of the region, so 0 in `(d - 1, d - 1)`, except that when `d` is even
the cells `(d - 1, d - 3)` and `(d - 1, d - 2)` hold 1 and 2 where the
descending fill has 2 and 1; for odd `d` no cell deviates.  For `d = 3` the
rows are `[8,7,6],[5,4,3],[2,1,0]` and for `d = 4` they are
`[15,14,13,12],[11,10,9,8],[7,6,5,4],[3,1,2,0]`. -/
theorem init_descending_fill_even_swap (d : Int) (hd : DIM_MIN ≤ d ∧ d ≤ DIM_MAX)
    (b0 : Board) :
    (∀ i j, InRegion d i j →
      init d b0 i j =
        if d % 2 = 0 ∧ i = d - 1 ∧ j = d - 3 then 1
        else if d % 2 = 0 ∧ i = d - 1 ∧ j = d - 2 then 2
        else d * d - 1 - (i * d + j)) ∧
    init d b0 (d - 1) (d - 1) = 0 ∧
    (d * d - 1 - ((d - 1) * d + (d - 3)) = 2 ∧ d * d - 1 - ((d - 1) * d + (d - 2)) = 1) ∧
    rows 3 (init 3 b0) = [[8, 7, 6], [5, 4, 3], [2, 1, 0]] ∧
    rows 4 (init 4 b0) = [[15, 14, 13, 12], [11, 10, 9, 8], [7, 6, 5, 4], [3, 1, 2, 0]] := by
  have h3 : 3 ≤ d := hd.1
  refine ⟨fun i j h => init_apply d h3 b0 i j h, ?_, ⟨by ring, by ring⟩, ?_, ?_⟩
  · rw [init_apply d h3 b0 (d - 1) (d - 1) ⟨by omega, by omega, by omega, by omega⟩,
      if_neg (by omega), if_neg (by omega)]
    ring
  · rw [rows_congr 3 (init 3 b0) (startBoard 3) (init_eq_startBoard 3 (by omega) b0)]
    decide
  · rw [rows_congr 4 (init 4 b0) (startBoard 4) (init_eq_startBoard 4 (by omega) b0)]
    decide

theorem tiles_congr (d : Int) (b1 b2 : Board)
    (h : ∀ i j, InRegion d i j → b1 i j = b2 i j) : tiles d b1 = tiles d b2 := by
  unfold tiles
  congr 1
  apply List.map_congr_left
  intro p hp
  exact h p.1 p.2 ((mem_cells d p).1 hp)

set_option maxRecDepth 100000 in
theorem inversions_startBoard (d : Int) (h3 : 3 ≤ d) (h9 : d ≤ 9) :
    inversions (tiles d (startBoard d)) % 2 = 0 := by
  interval_cases d <;> decide

set_option maxRecDepth 100000 in
theorem inversions_winningBoard (d : Int) (h3 : 3 ≤ d) (h9 : d ≤ 9) :
    inversions (tiles d (winningBoard d)) = 0 := by
  interval_cases d <;> decide

/-- C9: for `d` in `[3, 9]`, the board produced by `init` is solvable by the
inversion-parity rule: its blank is in the last cell, and the number of
inversions among its tiles read in row-major order is even, as it is (namely
zero) for the winning configuration. -/
theorem init_solvable (d : Int) (hd : DIM_MIN ≤ d ∧ d ≤ DIM_MAX) (b0 : Board) :
    init d b0 (d - 1) (d - 1) = 0 ∧
    inversions (tiles d (init d b0)) % 2 = 0 ∧
    inversions (tiles d (init d b0)) % 2 = inversions (tiles d (winningBoard d)) % 2 := by
  have h3 : 3 ≤ d := hd.1
  have h9 : d ≤ 9 := hd.2
  have e := tiles_congr d (init d b0) (startBoard d) (init_eq_startBoard d h3 b0)
  refine ⟨?_, ?_, ?_⟩
  · rw [init_apply d h3 b0 (d - 1) (d - 1) ⟨by omega, by omega, by omega, by omega⟩,
      if_neg (by omega), if_neg (by omega)]
    ring
  · rw [e]
    exact inversions_startBoard d h3 h9
  · rw [e, inversions_startBoard d h3 h9, inversions_winningBoard d h3 h9]

/-! ## One move from winning -/

/-- A board with the blank in `(br, bc)` next to the final cell, the tile that
belongs in `(br, bc)` in the final cell, and every other cell in its winning
place: `won` returns 0, moving that tile returns 1, and then `won` returns 1. -/
theorem near_win_finishes (d : Int) (h3 : 3 ≤ d) (h9 : d ≤ 9) (b : Board) (br bc : Int)
    (hQ : InRegion d br bc) (hadj : Adjacent (d - 1) (d - 1) br bc)
    (hb : ∀ i j, InRegion d i j → b i j =
      if i = br ∧ j = bc then 0
      else if i = d - 1 ∧ j = d - 1 then br * d + bc + 1
      else i * d + j + 1) :
    won d b = 0 ∧ (move d b (br * d + bc + 1)).1 = 1 ∧
      won d (move d b (br * d + bc + 1)).2 = 1 := by
  have hL : InRegion d (d - 1) (d - 1) := ⟨by omega, by omega, by omega, by omega⟩
  have hne : ¬ (d - 1 = br ∧ d - 1 = bc) := by unfold Adjacent at hadj; omega
  have hbQ : b br bc = 0 := by rw [hb br bc hQ, if_pos ⟨rfl, rfl⟩]
  have hbL : b (d - 1) (d - 1) = br * d + bc + 1 := by
    rw [hb _ _ hL, if_neg hne, if_pos ⟨rfl, rfl⟩]
  have hQlast : br * d + bc + 1 ≠ d * d := fun e =>
    hne (by have := (last_cell_iff d br bc hQ).1 e; omega)
  have hbr0 : 0 ≤ br * d := Int.mul_nonneg hQ.1 (by omega)
  have hlt : br * d + bc + 1 ≤ d * d := by
    have h1 : br * d ≤ (d - 1) * d := Int.mul_le_mul_of_nonneg_right (by have := hQ.2.1; omega)
      (by omega)
    have h2 : (d - 1) * d = d * d - d := by ring
    have := hQ.2.2.2
    omega
  have pos_inj : ∀ i j, InRegion d i j → i * d + j + 1 = br * d + bc + 1 → i = br ∧ j = bc := by
    intro i j hij e
    unfold InRegion at hij hQ
    clear hb hbQ hbL hadj hne hL hQlast hbr0 hlt
    interval_cases d <;> omega
  have hwon0 : won d b = 0 := by
    apply (won_spec d (by omega) b).2
    intro h
    have := h br bc hQ hQlast
    rw [hbQ] at this
    have := hQ.2.2.1
    omega
  have hmove : move d b (br * d + bc + 1) =
      (1, (b.set br bc (br * d + bc + 1)).set (d - 1) (d - 1) 0) := by
    rw [move_of_unique d b (br * d + bc + 1) (d - 1) (d - 1) br bc
      ⟨by have := hQ.2.2.1; omega, by omega⟩ hL hQ hbL hbQ, if_pos hadj]
    · intro i j hij e
      rw [hb i j hij] at e
      by_cases e1 : i = br ∧ j = bc
      · rw [if_pos e1] at e
        have := hQ.2.2.1
        omega
      · rw [if_neg e1] at e
        by_cases e2 : i = d - 1 ∧ j = d - 1
        · exact e2
        · rw [if_neg e2] at e
          exact absurd (pos_inj i j hij e) e1
    · intro i j hij e
      rw [hb i j hij] at e
      by_cases e1 : i = br ∧ j = bc
      · exact e1
      · rw [if_neg e1] at e
        have hi0 : 0 ≤ i * d := Int.mul_nonneg hij.1 (by omega)
        have := hij.2.2.1
        have := hQ.2.2.1
        by_cases e2 : i = d - 1 ∧ j = d - 1
        · rw [if_pos e2] at e
          omega
        · rw [if_neg e2] at e
          omega
  refine ⟨hwon0, by rw [hmove], ?_⟩
  rw [hmove]
  apply (won_spec d (by omega) _).1
  intro i j hij hlast
  have hnl : ¬ (i = d - 1 ∧ j = d - 1) := fun e => hlast ((last_cell_iff d i j hij).2 e)
  show ((b.set br bc (br * d + bc + 1)).set (d - 1) (d - 1) 0) i j = i * d + j + 1
  rw [Board.set_apply, if_neg hnl, Board.set_apply]
  by_cases e1 : i = br ∧ j = bc
  · rw [if_pos e1, e1.1, e1.2]
  · rw [if_neg e1, hb i j hij, if_neg e1, if_neg hnl]

theorem nearWinLeft_apply (d i j : Int) :
    nearWinLeft d i j =
      if i = d - 1 ∧ j = d - 2 then 0
      else if i = d - 1 ∧ j = d - 1 then (d - 1) * d + (d - 2) + 1
      else i * d + j + 1 := by
  unfold nearWinLeft winningBoard
  rw [Board.set_apply, Board.set_apply]
  by_cases e1 : i = d - 1 ∧ j = d - 2
  · rw [if_pos e1, if_pos e1]
  · rw [if_neg e1, if_neg e1]
    by_cases e2 : i = d - 1 ∧ j = d - 1
    · rw [if_pos e2, if_pos e2]; ring
    · rw [if_neg e2, if_neg e2, if_neg e2]

theorem nearWinUp_apply (d i j : Int) :
    nearWinUp d i j =
      if i = d - 2 ∧ j = d - 1 then 0
      else if i = d - 1 ∧ j = d - 1 then (d - 2) * d + (d - 1) + 1
      else i * d + j + 1 := by
  unfold nearWinUp winningBoard
  rw [Board.set_apply, Board.set_apply]
  by_cases e1 : i = d - 2 ∧ j = d - 1
  · rw [if_pos e1, if_pos e1]
  · rw [if_neg e1, if_neg e1]
    by_cases e2 : i = d - 1 ∧ j = d - 1
    · rw [if_pos e2, if_pos e2]; ring
    · rw [if_neg e2, if_neg e2, if_neg e2]

/-- C10: for `d` in `[3, 9]`, on a board that is one move from winning (the
winning configuration with the blank exchanged with its left neighbour
`d² - 1`, or with its upper neighbour `d² - d`, so that this tile sits in the
final cell), `won` returns 0, `move` of that tile returns 1, and `won` on the
resulting board returns 1. -/
theorem one_move_from_winning (d : Int) (hd : DIM_MIN ≤ d ∧ d ≤ DIM_MAX) (bl bu : Board)
    (hl : ∀ i j, InRegion d i j → bl i j = nearWinLeft d i j)
    (hu : ∀ i j, InRegion d i j → bu i j = nearWinUp d i j) :
    (won d bl = 0 ∧ (move d bl (d * d - 1)).1 = 1 ∧ won d (move d bl (d * d - 1)).2 = 1) ∧
    (won d bu = 0 ∧ (move d bu (d * d - d)).1 = 1 ∧ won d (move d bu (d * d - d)).2 = 1) := by
  have h3 : 3 ≤ d := hd.1
  have h9 : d ≤ 9 := hd.2
  constructor
  · have e : d * d - 1 = (d - 1) * d + (d - 2) + 1 := by ring
    rw [e]
    exact near_win_finishes d h3 h9 bl (d - 1) (d - 2) ⟨by omega, by omega, by omega, by omega⟩
      (by unfold Adjacent; omega) (fun i j hij => by rw [hl i j hij, nearWinLeft_apply])
  · have e : d * d - d = (d - 2) * d + (d - 1) + 1 := by ring
    rw [e]
    exact near_win_finishes d h3 h9 bu (d - 2) (d - 1) ⟨by omega, by omega, by omega, by omega⟩
      (by unfold Adjacent; omega) (fun i j hij => by rw [hu i j hij, nearWinUp_apply])

/-! ## Text produced by the output loops -/

theorem join_cons (a : String) (l : List String) :
    String.join (a :: l) = a ++ String.join l := by
  apply String.ext
  simp [String.data_join, String.data_append]

theorem join_append (l1 l2 : List String) :
    String.join (l1 ++ l2) = String.join l1 ++ String.join l2 := by
  apply String.ext
  simp [String.data_join, String.data_append]

theorem join_nil : String.join [] = "" := rfl

/-- A loop whose body appends a text depending only on the loop variable
appends the concatenation of these texts. -/
theorem foldl_appending {α : Type} (f : String → α → String) (g : α → String)
    (l : List α) (h : ∀ s, ∀ x ∈ l, f s x = s ++ g x) (s : String) :
    l.foldl f s = s ++ String.join (l.map g) := by
  induction l generalizing s with
  | nil => simp [join_nil, String.append_empty]
  | cons a l ih =>
    rw [List.foldl_cons, h s a (List.mem_cons_self _ _),
      ih (fun s x hx => h s x (List.mem_cons_of_mem _ hx)),
      List.map_cons, join_cons, String.append_assoc]

theorem drawCell_append (b : Board) (i j : Int) (out : String) :
    drawCell b i j out = out ++ drawCell b i j "" := by
  unfold drawCell
  by_cases h1 : b i j > 0
  · have h2 : ¬ b i j = 0 := by omega
    simp only [if_pos h1, if_neg h2, String.empty_append]
  · by_cases h2 : b i j = 0
    · simp only [if_neg h1, if_pos h2, String.empty_append]
    · simp only [if_neg h1, if_neg h2, String.append_empty]

theorem drawCell_of_nonneg (b : Board) (i j : Int) (h : 0 ≤ b i j) :
    drawCell b i j "" = cellText (b i j) := by
  unfold drawCell cellText
  by_cases h2 : b i j = 0
  · rw [if_pos h2]
    simp [h2]
  · have h1 : b i j > 0 := by omega
    rw [if_neg h2, if_neg h2]
    simp only [if_pos h1, String.empty_append]

/-- The text one call of `draw` appends to standard output, for any board. -/
theorem draw_append (d : Int) (b : Board) (out : String) :
    draw d b out = out ++ String.join ((idx d).map
      (fun i => String.join ((idx d).map (fun j => drawCell b i j "")) ++ "\n")) := by
  unfold draw
  apply foldl_appending
  intro s i _
  rw [foldl_appending (fun out j => drawCell b i j out) (fun j => drawCell b i j "")
    (idx d) (fun s j _ => drawCell_append b i j s), String.append_assoc]

theorem cellText_no_newline :
    ∀ n : Nat, n < 81 → '\n' ∉ (cellText (Int.ofNat n)).data := by
  decide


/-! ## `draw` -/

/-- C11: for `d` in `[3, 9]` and a board satisfying the invariant, the text
produced by `draw` is the concatenation of `d` lines, one per board row in
order; each line is the concatenation over the row's `d` cells, left to right,
of the decimal value between two spaces for a non-blank cell and of an
underscore between two spaces for the blank cell, with no newline inside, and
is terminated by a newline. -/
theorem draw_text_lines (d : Int) (hd : DIM_MIN ≤ d ∧ d ≤ DIM_MAX) (b : Board)
    (hb : Invariant d b) :
    draw d b "" = String.join ((idx d).map (fun i => rowText d b i ++ "\n")) ∧
    (((idx d).map (fun i => rowText d b i ++ "\n")).length : Int) = d ∧
    (∀ i ∈ idx d, rowText d b i = String.join ((idx d).map (fun j => cellText (b i j))) ∧
      (((idx d).map (fun j => cellText (b i j))).length : Int) = d ∧
      '\n' ∉ (rowText d b i).data) := by
  have h3 : 3 ≤ d := hd.1
  have h9 : d ≤ 9 := hd.2
  have hrow : ∀ i ∈ idx d,
      String.join ((idx d).map (fun j => drawCell b i j "")) = rowText d b i := by
    intro i hi
    unfold rowText
    congr 1
    apply List.map_congr_left
    intro j hj
    rw [mem_idx] at hi hj
    exact drawCell_of_nonneg b i j (hb.cell_range i j ⟨hi.1, hi.2, hj.1, hj.2⟩).1
  have hlen : ((idx d).length : Int) = d := by
    rw [length_idx]
    omega
  refine ⟨?_, ?_, ?_⟩
  · rw [draw_append, String.empty_append]
    congr 1
    apply List.map_congr_left
    intro i hi
    rw [hrow i hi]
  · rw [List.length_map, hlen]
  · intro i hi
    refine ⟨rfl, by rw [List.length_map, hlen], ?_⟩
    unfold rowText
    rw [String.data_join]
    intro hmem
    obtain ⟨cs, hcs, hc⟩ := List.mem_flatten.1 hmem
    obtain ⟨t, ht, rfl⟩ := List.mem_map.1 hcs
    obtain ⟨j, hj, rfl⟩ := List.mem_map.1 ht
    rw [mem_idx] at hi hj
    have hr := hb.cell_range i j ⟨hi.1, hi.2, hj.1, hj.2⟩
    have hdd : d * d ≤ 81 := by nlinarith
    have e : b i j = Int.ofNat (b i j).toNat := by
      show b i j = (((b i j).toNat : Nat) : Int)
      omega
    rw [e] at hc
    exact cellText_no_newline (b i j).toNat (by omega) hc

/-- C12: `draw` stores into neither the board nor `d`, and the text it writes
depends only on them: a second call right after the first writes the same text
as the first. -/
theorem draw_twice_same_text (g : Game) :
    g.draw.board = g.board ∧ g.draw.d = g.d ∧
    g.draw.out = g.out ++ draw g.d g.board "" ∧
    g.draw.draw.out = g.draw.out ++ draw g.d g.board "" := by
  refine ⟨rfl, rfl, ?_, ?_⟩
  · show draw g.d g.board g.out = g.out ++ draw g.d g.board ""
    rw [draw_append g.d g.board g.out, draw_append g.d g.board "", String.empty_append]
  · show draw g.d g.board (draw g.d g.board g.out) =
      draw g.d g.board g.out ++ draw g.d g.board ""
    rw [draw_append g.d g.board (draw g.d g.board g.out), draw_append g.d g.board "",
      String.empty_append]

/-! ## The transcript -/

theorem intercalate_go_snoc (sep a : String) (l : List String) (acc : String) :
    String.intercalate.go acc sep (l ++ [a]) = String.intercalate.go acc sep l ++ sep ++ a := by
  induction l generalizing acc with
  | nil => simp [String.intercalate.go]
  | cons x l ih =>
    simp only [List.cons_append, String.intercalate.go]
    exact ih _

theorem intercalate_snoc (sep a x : String) (l : List String) :
    String.intercalate sep ((x :: l) ++ [a]) = String.intercalate sep (x :: l) ++ sep ++ a := by
  simp only [List.cons_append, String.intercalate]
  exact intercalate_go_snoc sep a l x

theorem intercalate_singleton (sep a : String) : String.intercalate sep [a] = a := by
  simp [String.intercalate, String.intercalate.go]

/-- The first `m` iterations of a loop over `n` items that writes each item
followed by a separator unless it is the last of the `n`. -/
theorem join_with_separator (f : Int → String) (sep : String) (n m : Nat) (hm : m ≤ n) :
    String.join (((List.range m).map Int.ofNat).map
        (fun j => f j ++ (if j < (n : Int) - 1 then sep else ""))) =
      String.intercalate sep (((List.range m).map Int.ofNat).map f) ++
        (if 0 < m ∧ m < n then sep else "") := by
  induction m with
  | zero => simp [String.intercalate, join_nil]
  | succ m ih =>
    have hm2 : Int.ofNat m = (m : Int) := rfl
    rw [List.range_succ, List.map_append, List.map_append, join_append, ih (by omega)]
    simp only [List.map_cons, List.map_nil, join_cons, join_nil, String.append_empty, hm2,
      List.map_append]
    cases m with
    | zero =>
      simp only [List.range_zero, List.map_nil, List.nil_append, intercalate_singleton]
      have e1 : String.intercalate sep [] = "" := rfl
      rw [e1, if_neg (by omega), String.empty_append, String.empty_append]
      by_cases h : (((0 : Nat) : Int)) < (n : Int) - 1
      · rw [if_pos h, if_pos (by omega)]
      · rw [if_neg h, if_neg (by omega)]
    | succ k =>
      have hne : ((List.range (k + 1)).map Int.ofNat).map f ≠ [] := by
        simp [List.range_succ]
      obtain ⟨x, l, hxl⟩ := List.exists_cons_of_ne_nil hne
      rw [hxl, intercalate_snoc, if_pos (by omega)]
      by_cases h : (((k + 1 : Nat) : Int)) < (n : Int) - 1
      · rw [if_pos h, if_pos (by omega)]
        simp only [String.append_assoc]
      · rw [if_neg h, if_neg (by omega)]
        simp only [String.append_assoc, String.append_empty]


theorem logCell_append (d : Int) (b : Board) (i j : Int) (log : String) :
    logCell d b i j log = log ++ (fmtInt (b i j) ++ (if j < d - 1 then "|" else "")) := by
  unfold logCell
  by_cases h : j < d - 1
  · simp only [if_pos h, String.append_assoc]
  · simp only [if_neg h, String.append_empty]

/-- The text the logging loops of `main` append to the log file. -/
theorem logBoard_append (d : Int) (hd : 0 ≤ d) (b : Board) (log : String) :
    logBoard d b log = log ++ boardLines d b := by
  have hn : ((d.toNat : Nat) : Int) = d := by omega
  unfold logBoard boardLines
  apply foldl_appending
  intro s i _
  rw [foldl_appending (fun log j => logCell d b i j log)
    (fun j => fmtInt (b i j) ++ (if j < d - 1 then "|" else ""))
    (idx d) (fun s j _ => logCell_append d b i j s), String.append_assoc]
  congr 2
  have h := join_with_separator (fun j => fmtInt (b i j)) "|" d.toNat d.toNat (le_refl _)
  rw [hn, if_neg (by omega), String.append_empty] at h
  exact h

theorem mainLoop_append (d : Int) (hd : 0 ≤ d) (inputs : List Int) (b : Board)
    (log : String) : mainLoop d inputs b log = log ++ mainLoop d inputs b "" := by
  induction inputs generalizing b log with
  | nil =>
    simp only [mainLoop, ite_self]
    rw [logBoard_append d hd b log, logBoard_append d hd b "", String.empty_append]
  | cons t rest ih =>
    simp only [mainLoop]
    rw [logBoard_append d hd b log, logBoard_append d hd b "", String.empty_append]
    by_cases hw : won d b ≠ 0
    · rw [if_pos hw, if_pos hw]
    · rw [if_neg hw, if_neg hw]
      by_cases ht : t = 0
      · rw [if_pos ht, if_pos ht]
      · rw [if_neg ht, if_neg ht, ih (move d b t).2 (log ++ boardLines d b ++ (fmtInt t ++ "\n")),
          ih (move d b t).2 (boardLines d b ++ (fmtInt t ++ "\n"))]
        simp only [String.append_assoc]

/-- C13: with the loop of `main` as a function of `d` in `[3, 9]` and of the
integers read, a turn that starts with board `b` appends to the transcript `d`
lines, the i-th being the decimal values of row i joined by `|` with no
trailing separator; when the board is not won and the integer entered is not
0 it then appends one line holding that integer, whatever `move` returns, and
the remaining turns follow on the board `move` leaves; when the board is won
or 0 is entered the turn appends the board lines only and nothing follows. -/
theorem session_transcript (d : Int) (hd : DIM_MIN ≤ d ∧ d ≤ DIM_MAX) (b : Board)
    (log : String) :
    (boardLines d b = String.join ((idx d).map (fun i =>
        String.intercalate "|" ((idx d).map (fun j => fmtInt (b i j))) ++ "\n")) ∧
      ((idx d).length : Int) = d) ∧
    (∀ inputs, won d b ≠ 0 → mainLoop d inputs b log = log ++ boardLines d b) ∧
    (∀ rest, mainLoop d (0 :: rest) b log = log ++ boardLines d b) ∧
    (∀ t rest, won d b = 0 → t ≠ 0 →
      mainLoop d (t :: rest) b log =
        log ++ boardLines d b ++ (fmtInt t ++ "\n") ++ mainLoop d rest (move d b t).2 "") ∧
    mainLoop d [] b log = log ++ boardLines d b := by
  have h3 : 3 ≤ d := hd.1
  have h0 : 0 ≤ d := by omega
  refine ⟨⟨rfl, by rw [length_idx]; omega⟩, ?_, ?_, ?_, ?_⟩
  · intro inputs hw
    cases inputs with
    | nil => simp only [mainLoop, ite_self, logBoard_append d h0]
    | cons t rest => simp only [mainLoop, if_pos hw, logBoard_append d h0]
  · intro rest
    simp only [mainLoop, logBoard_append d h0, if_true, ite_self]
  · intro t rest hw ht
    have hw2 : ¬ won d b ≠ 0 := fun h => h hw
    simp only [mainLoop]
    rw [if_neg hw2, if_neg ht, mainLoop_append d h0 rest, logBoard_append d h0]
  · simp only [mainLoop, ite_self, logBoard_append d h0]

/-! ## `won` on arbitrary boards -/

theorem won_congr (d : Int) (hd : 0 ≤ d) (b1 b2 : Board)
    (h : ∀ i j, InRegion d i j → i * d + j + 1 ≠ d * d → b1 i j = b2 i j) :
    won d b1 = won d b2 := by
  have s1 := won_spec d hd b1
  have s2 := won_spec d hd b2
  by_cases hc : FirstCellsAscending d b2
  · have hc1 : FirstCellsAscending d b1 := fun i j hij hne => by
      rw [h i j hij hne]; exact hc i j hij hne
    rw [s1.1 hc1, s2.1 hc]
  · have hc1 : ¬ FirstCellsAscending d b1 := fun h1 => hc (fun i j hij hne => by
      rw [← h i j hij hne]; exact h1 i j hij hne)
    rw [s1.2 hc1, s2.2 hc]

/-- C14: for `d` in `[3, 9]` and any board contents, `won` returns 1 exactly
when each of the first `d² - 1` cells in row-major order holds its 1-based
position, and 0 otherwise; the value of the final cell `(d - 1, d - 1)` has no
influence, and there is a board with a non-zero final cell on which `won`
returns 1. -/
theorem won_ignores_final_cell (d : Int) (hd : DIM_MIN ≤ d ∧ d ≤ DIM_MAX) (b : Board) :
    (won d b = 1 ↔
      ∀ i j, InRegion d i j → ¬ (i = d - 1 ∧ j = d - 1) → b i j = i * d + j + 1) ∧
    (won d b ≠ 1 → won d b = 0) ∧
    (∀ v, won d (b.set (d - 1) (d - 1) v) = won d b) ∧
    (∃ b2 : Board, b2 (d - 1) (d - 1) ≠ 0 ∧ won d b2 = 1) := by
  have h3 : 3 ≤ d := hd.1
  have h0 : 0 ≤ d := by omega
  have hs := won_spec d h0 b
  have hiff : FirstCellsAscending d b ↔
      ∀ i j, InRegion d i j → ¬ (i = d - 1 ∧ j = d - 1) → b i j = i * d + j + 1 := by
    constructor
    · intro h i j hij hne
      exact h i j hij (fun e => hne ((last_cell_iff d i j hij).1 e))
    · intro h i j hij hne
      exact h i j hij (fun e => hne ((last_cell_iff d i j hij).2 e))
  refine ⟨?_, ?_, ?_, ?_⟩
  · rw [← hiff]
    constructor
    · intro h
      by_contra hc
      rw [hs.2 hc] at h
      omega
    · exact hs.1
  · intro h
    by_cases hc : FirstCellsAscending d b
    · exact absurd (hs.1 hc) h
    · exact hs.2 hc
  · intro v
    apply won_congr d h0
    intro i j hij hne
    rw [Board.set_apply, if_neg (fun e => hne ((last_cell_iff d i j hij).2 e))]
  · refine ⟨fun i j => i * d + j + 1, ?_, ?_⟩
    · show (d - 1) * d + (d - 1) + 1 ≠ 0
      have : 0 ≤ (d - 1) * d := Int.mul_nonneg (by omega) (by omega)
      omega
    · exact (won_spec d h0 _).1 (fun i j _ _ => rfl)

/-! ## Repeating and counting moves -/

theorem adjacent_symm (r c br bc : Int) (h : Adjacent r c br bc) : Adjacent br bc r c := by
  unfold Adjacent at h ⊢
  omega

theorem move_snd_of_zero (d : Int) (b : Board) (tile : Int) (h : (move d b tile).1 = 0) :
    (move d b tile).2 = b := by
  unfold move at h ⊢
  split
  · rfl
  · rename_i hr
    rw [if_neg hr] at h
    simp only at h ⊢
    split
    · rename_i ha
      rw [if_pos ha] at h
      simp at h
    · rfl

theorem move_in_range_of_one (d : Int) (b : Board) (tile : Int) (h : (move d b tile).1 = 1) :
    1 ≤ tile ∧ tile ≤ d * d - 1 := by
  by_contra hc
  have hr : tile > d * d - 1 ∨ tile < 1 := by omega
  unfold move at h
  rw [if_pos hr] at h
  simp at h

/-- C15: for `d` in `[3, 9]`, a board satisfying the invariant and any `tile`,
when `move` returns 1 a second `move` of the same tile also returns 1 and
leaves every cell of the board as it was before the first call. -/
theorem move_twice_restores (d : Int) (hd : DIM_MIN ≤ d ∧ d ≤ DIM_MAX) (b : Board)
    (hb : Invariant d b) (tile : Int) (h : (move d b tile).1 = 1) :
    (move d (move d b tile).2 tile).1 = 1 ∧
    ∀ i j, (move d (move d b tile).2 tile).2 i j = b i j := by
  have ht := move_in_range_of_one d b tile h
  obtain ⟨r, c, hP, hbP⟩ := occurrences_exists d b tile (hb.occ tile (by omega) (by omega))
  obtain ⟨br, bc, hQ, hbQ⟩ := occurrences_exists d b 0 (hb.occ 0 (by omega) (by omega))
  have hm := move_of_invariant d b hb tile r c br bc ht hP hQ hbP hbQ
  have hadj : Adjacent r c br bc := by
    by_contra hc
    rw [hm, if_neg hc] at h
    simp at h
  rw [if_pos hadj] at hm
  have hne : ¬ (br = r ∧ bc = c) := by unfold Adjacent at hadj; omega
  have hb1 := invariant_swap d b hb tile r c br bc ht hP hQ hbP hbQ
  have e1 : ((b.set br bc tile).set r c 0) br bc = tile := by
    rw [Board.set_apply, if_neg hne, Board.set_apply, if_pos ⟨rfl, rfl⟩]
  have e2 : ((b.set br bc tile).set r c 0) r c = 0 := by
    rw [Board.set_apply, if_pos ⟨rfl, rfl⟩]
  have hm2 := move_of_invariant d _ hb1 tile br bc r c ht hQ hP e1 e2
  rw [if_pos (adjacent_symm r c br bc hadj)] at hm2
  rw [hm, hm2]
  refine ⟨rfl, ?_⟩
  intro i j
  show ((((b.set br bc tile).set r c 0).set r c tile).set br bc 0) i j = b i j
  simp only [Board.set_apply]
  by_cases h1 : i = br ∧ j = bc
  · rw [if_pos h1, h1.1, h1.2, hbQ]
  · rw [if_neg h1]
    by_cases h2 : i = r ∧ j = c
    · rw [if_pos h2, h2.1, h2.2, hbP]
    · rw [if_neg h2, if_neg h2, if_neg h1]

theorem mem_neighbours (d br bc : Int) (p : Int × Int) :
    p ∈ neighbours d br bc ↔ InRegion d p.1 p.2 ∧ Adjacent p.1 p.2 br bc := by
  unfold neighbours Adjacent
  simp only [List.mem_filter, List.mem_cons, List.mem_singleton, List.not_mem_nil, or_false,
    decide_eq_true_eq, Prod.ext_iff]
  constructor
  · rintro ⟨h, hr⟩
    exact ⟨hr, by omega⟩
  · rintro ⟨hr, h⟩
    exact ⟨by omega, hr⟩

theorem nodup_neighbours (d br bc : Int) : (neighbours d br bc).Nodup := by
  unfold neighbours
  apply List.Nodup.filter
  simp only [List.nodup_cons, List.mem_cons, List.mem_singleton, List.not_mem_nil, Prod.mk.injEq,
    List.nodup_nil, and_true, or_false, not_or, not_false_eq_true]
  omega

theorem length_neighbours (d br bc : Int) (hd : 2 ≤ d) (h : InRegion d br bc) :
    2 ≤ (neighbours d br bc).length ∧ (neighbours d br bc).length ≤ 4 := by
  unfold neighbours
  unfold InRegion at h
  simp only [List.filter_cons, List.filter_nil, InRegion]
  split_ifs <;> simp only [List.length_cons, List.length_nil, decide_eq_true_eq] at * <;> omega


theorem mem_legalTiles (d : Int) (hd : 0 ≤ d) (b : Board) (t : Int) :
    t ∈ legalTiles d b ↔ (move d b t).1 = 1 := by
  unfold legalTiles
  simp only [List.mem_filter, List.mem_map, List.mem_range, decide_eq_true_eq]
  constructor
  · exact fun h => h.2
  · intro h
    have ht := move_in_range_of_one d b t h
    refine ⟨⟨t.toNat, by omega, ?_⟩, h⟩
    show ((t.toNat : Nat) : Int) = t
    omega

theorem nodup_legalTiles (d : Int) (b : Board) : (legalTiles d b).Nodup := by
  unfold legalTiles
  apply List.Nodup.filter
  apply List.Nodup.map _ (List.nodup_range _)
  intro a c h
  exact Int.ofNat.inj h

/-- Under the invariant the accepted tiles are the values held by the
neighbours of the blank. -/
theorem legalTiles_perm (d : Int) (b : Board) (hb : Invariant d b) (br bc : Int)
    (hQ : InRegion d br bc) (hbQ : b br bc = 0) :
    List.Perm (legalTiles d b) ((neighbours d br bc).map (fun p => b p.1 p.2)) := by
  have hd0 : 0 < d := by unfold InRegion at hQ; omega
  have hdd : 0 < d * d := Int.mul_pos hd0 hd0
  have o0 := hb.occ 0 (by omega) hdd
  have hnd : ((neighbours d br bc).map (fun p => b p.1 p.2)).Nodup := by
    apply List.Nodup.map_on _ (nodup_neighbours d br bc)
    intro p hp q hq e
    have hp2 := ((mem_neighbours d br bc p).1 hp).1
    have hq2 := ((mem_neighbours d br bc q).1 hq).1
    have hr := hb.cell_range p.1 p.2 hp2
    have := occurrences_unique d b (b p.1 p.2) (hb.occ _ hr.1 hr.2) p.1 p.2 q.1 q.2 hp2 hq2
      rfl e.symm
    exact Prod.ext this.1 this.2
  rw [List.perm_ext_iff_of_nodup (nodup_legalTiles d b) hnd]
  intro t
  rw [mem_legalTiles d (by omega) b t, List.mem_map]
  constructor
  · intro h
    have ht := move_in_range_of_one d b t h
    obtain ⟨r, c, hP, hbP⟩ := occurrences_exists d b t (hb.occ t (by omega) (by omega))
    have hm := move_of_invariant d b hb t r c br bc ht hP hQ hbP hbQ
    have hadj : Adjacent r c br bc := by
      by_contra hc
      rw [hm, if_neg hc] at h
      simp at h
    exact ⟨(r, c), (mem_neighbours d br bc (r, c)).2 ⟨hP, hadj⟩, hbP⟩
  · rintro ⟨p, hp, hbp⟩
    obtain ⟨hP, hadj⟩ := (mem_neighbours d br bc p).1 hp
    have hr := hb.cell_range p.1 p.2 hP
    rw [hbp] at hr
    have ht0 : t ≠ 0 := by
      intro h0
      have := occurrences_unique d b 0 o0 p.1 p.2 br bc hP hQ (by rw [hbp, h0]) hbQ
      unfold Adjacent at hadj
      omega
    rw [move_of_invariant d b hb t p.1 p.2 br bc (by omega) hP hQ hbp hbQ, if_pos hadj]

/-- C16: for `d` in `[3, 9]` and a board satisfying the invariant, with the
blank in cell `(br, bc)`: the tile values for which `move` returns 1 are as
many as the cells of the region that are orthogonal neighbours of the blank,
which is at least 2 and at most 4, so some tile can always be moved. -/
theorem legal_moves_count (d : Int) (hd : DIM_MIN ≤ d ∧ d ≤ DIM_MAX) (b : Board)
    (hb : Invariant d b) (br bc : Int) (hQ : InRegion d br bc) (hbQ : b br bc = 0) :
    (∀ t, (move d b t).1 = 1 ↔ t ∈ legalTiles d b) ∧
    (legalTiles d b).Nodup ∧
    (legalTiles d b).length = (neighbours d br bc).length ∧
    2 ≤ (legalTiles d b).length ∧ (legalTiles d b).length ≤ 4 ∧
    ∃ t, (move d b t).1 = 1 := by
  have h3 : 3 ≤ d := hd.1
  have hlen : (legalTiles d b).length = (neighbours d br bc).length := by
    rw [(legalTiles_perm d b hb br bc hQ hbQ).length_eq, List.length_map]
  have hbnd := length_neighbours d br bc (by omega) hQ
  refine ⟨fun t => (mem_legalTiles d (by omega) b t).symm, nodup_legalTiles d b, hlen,
    by omega, by omega, ?_⟩
  have hpos : 0 < (legalTiles d b).length := by omega
  obtain ⟨t, ht⟩ := List.exists_mem_of_length_pos hpos
  exact ⟨t, (mem_legalTiles d (by omega) b t).1 ht⟩

/-! ## The starting board is not won -/

theorem won_init (d : Int) (h3 : 3 ≤ d) (b0 : Board) : won d (init d b0) = 0 := by
  apply (won_spec d (by omega) _).2
  intro h
  have hdd : 9 ≤ d * d := by nlinarith
  have hc := h 0 0 ⟨by omega, by omega, by omega, by omega⟩ (by omega)
  rw [init_apply d h3 b0 0 0 ⟨by omega, by omega, by omega, by omega⟩,
    if_neg (by omega), if_neg (by omega)] at hc
  omega

theorem play_of_rejected (d : Int) (b : Board) (requests : List Int)
    (h : ∀ t ∈ requests, (move d b t).1 = 0) : play d b requests = b := by
  induction requests with
  | nil => rfl
  | cons t ts ih =>
    show play d (move d b t).2 ts = b
    rw [move_snd_of_zero d b t (h t (List.mem_cons_self _ _))]
    exact ih (fun x hx => h x (List.mem_cons_of_mem _ hx))

/-- C17: for `d` in `[3, 9]`, `won` returns 0 on the board produced by `init`,
and it still does after any requests that `move` has all rejected: no win is
reported before a move has been accepted. -/
theorem won_zero_before_first_accepted_move (d : Int) (hd : DIM_MIN ≤ d ∧ d ≤ DIM_MAX)
    (b0 : Board) :
    won d (init d b0) = 0 ∧
    ∀ requests : List Int, (∀ t ∈ requests, (move d (init d b0) t).1 = 0) →
      won d (play d (init d b0) requests) = 0 := by
  refine ⟨won_init d hd.1 b0, ?_⟩
  intro requests h
  rw [play_of_rejected d (init d b0) requests h]
  exact won_init d hd.1 b0

/-! ## Index safety -/

theorem foldl_preserves {α σ : Type} (Q : σ → Prop) (f : σ → α → σ) (l : List α)
    (h : ∀ s, ∀ x ∈ l, Q s → Q (f s x)) (s : σ) (hs : Q s) : Q (l.foldl f s) := by
  induction l generalizing s with
  | nil => exact hs
  | cons a l ih =>
    exact ih (fun s x hx => h s x (List.mem_cons_of_mem _ hx)) (f s a)
      (h s a (List.mem_cons_self _ _) hs)

/-- Nested loops over the region that only append loop-index pairs yield
accesses inside the region. -/
theorem nested_accesses_inRegion {σ : Type} (d : Int) (tr : σ → List (Int × Int))
    (f : Int → Int → σ → σ)
    (hf : ∀ i j s, InRegion d i j → (∀ p ∈ tr s, InRegion d p.1 p.2) →
      ∀ p ∈ tr (f i j s), InRegion d p.1 p.2)
    (s : σ) (hs : ∀ p ∈ tr s, InRegion d p.1 p.2) :
    ∀ p ∈ tr ((idx d).foldl (fun s i => (idx d).foldl (fun s j => f i j s) s) s),
      InRegion d p.1 p.2 := by
  apply foldl_preserves (fun s => ∀ p ∈ tr s, InRegion d p.1 p.2) _ _ _ s hs
  intro s i hi hQ
  apply foldl_preserves (fun s => ∀ p ∈ tr s, InRegion d p.1 p.2) _ _ _ s hQ
  intro s j hj hQ2
  rw [mem_idx] at hi hj
  exact hf i j s ⟨hi.1, hi.2, hj.1, hj.2⟩ hQ2

theorem wonTraced_fst (d : Int) (b : Board) : (wonTraced d b).1 = wonScan d b := by
  unfold wonTraced wonScan
  generalize (idx d) = l
  have inner : ∀ (m : List Int) (i : Int) (s : WonState × List (Int × Int)),
      (m.foldl (fun s j => (wonCell d b i j s.1, s.2 ++ wonCellAccesses d i j s.1)) s).1 =
        m.foldl (fun s j => wonCell d b i j s) s.1 := by
    intro m i
    induction m with
    | nil => intro s; rfl
    | cons a m ih => intro s; rw [List.foldl_cons, List.foldl_cons, ih]
  have outer : ∀ (k m : List Int) (s : WonState × List (Int × Int)),
      (k.foldl (fun s i => m.foldl
        (fun s j => (wonCell d b i j s.1, s.2 ++ wonCellAccesses d i j s.1)) s) s).1 =
        k.foldl (fun s i => m.foldl (fun s j => wonCell d b i j s) s) s.1 := by
    intro k m
    induction k with
    | nil => intro s; rfl
    | cons a k ih => intro s; rw [List.foldl_cons, List.foldl_cons, ih, inner]
  exact outer l l _

/-- The positions the search loops of `move` end with are cells of the region,
for any board: each is the default `(0, 0)` or a pair of loop indices. -/
theorem scan_inRegion (d : Int) (hd : 1 ≤ d) (b : Board) (tile : Int) :
    InRegion d (scan d b tile).row (scan d b tile).col ∧
    InRegion d (scan d b tile).blankRow (scan d b tile).blankCol := by
  have h00 : InRegion d 0 0 := ⟨by omega, by omega, by omega, by omega⟩
  rw [scan_eq_scanList]
  constructor
  · by_cases h : ∃ q ∈ cells d, b q.1 q.2 = tile
    · obtain ⟨q, hq, _, h1, h2⟩ := scanList_tile_present b tile (cells d)
        { row := 0, col := 0, blankRow := 0, blankCol := 0 } h
      rw [h1, h2]
      exact (mem_cells d q).1 hq
    · have := scanList_tile_absent b tile (cells d)
        { row := 0, col := 0, blankRow := 0, blankCol := 0 } (fun q hq hb => h ⟨q, hq, hb⟩)
      rw [this.1, this.2]
      exact h00
  · by_cases h : ∃ q ∈ cells d, b q.1 q.2 = 0
    · obtain ⟨q, hq, _, h1, h2⟩ := scanList_blank_present b tile (cells d)
        { row := 0, col := 0, blankRow := 0, blankCol := 0 } h
      rw [h1, h2]
      exact (mem_cells d q).1 hq
    · have := scanList_blank_absent b tile (cells d)
        { row := 0, col := 0, blankRow := 0, blankCol := 0 } (fun q hq hb => h ⟨q, hq, hb⟩)
      rw [this.1, this.2]
      exact h00


theorem scan_found_or_default (d : Int) (b : Board) (tile : Int) :
    (((scan d b tile).row = 0 ∧ (scan d b tile).col = 0) ∨
      (InRegion d (scan d b tile).row (scan d b tile).col ∧
        b (scan d b tile).row (scan d b tile).col = tile)) ∧
    (((scan d b tile).blankRow = 0 ∧ (scan d b tile).blankCol = 0) ∨
      (InRegion d (scan d b tile).blankRow (scan d b tile).blankCol ∧
        b (scan d b tile).blankRow (scan d b tile).blankCol = 0)) := by
  rw [scan_eq_scanList]
  constructor
  · by_cases h : ∃ q ∈ cells d, b q.1 q.2 = tile
    · obtain ⟨q, hq, hb, h1, h2⟩ := scanList_tile_present b tile (cells d)
        { row := 0, col := 0, blankRow := 0, blankCol := 0 } h
      rw [h1, h2]
      exact Or.inr ⟨(mem_cells d q).1 hq, hb⟩
    · have := scanList_tile_absent b tile (cells d)
        { row := 0, col := 0, blankRow := 0, blankCol := 0 } (fun q hq hb => h ⟨q, hq, hb⟩)
      exact Or.inl this
  · by_cases h : ∃ q ∈ cells d, b q.1 q.2 = 0
    · obtain ⟨q, hq, hb, h1, h2⟩ := scanList_blank_present b tile (cells d)
        { row := 0, col := 0, blankRow := 0, blankCol := 0 } h
      rw [h1, h2]
      exact Or.inr ⟨(mem_cells d q).1 hq, hb⟩
    · have := scanList_blank_absent b tile (cells d)
        { row := 0, col := 0, blankRow := 0, blankCol := 0 } (fun q hq hb => h ⟨q, hq, hb⟩)
      exact Or.inl this

/-- C18: for `d` in `[3, 9]`, every index pair with which `init`, `draw`, `move`
and `won` read or write the board lies in the `d × d` region, hence inside the
`DIM_MAX × DIM_MAX` array; the swap indices `d - 3` and `d - 2` of `init` are
not negative, and each position `move` stores to is a cell its search found or
the default `(0, 0)`. -/
theorem board_accesses_in_bounds (d : Int) (hd : DIM_MIN ≤ d ∧ d ≤ DIM_MAX) (b : Board)
    (tile : Int) :
    (∀ p ∈ initAccesses d, InRegion d p.1 p.2) ∧
    (∀ p ∈ drawAccesses d b, InRegion d p.1 p.2) ∧
    (∀ p ∈ moveAccesses d b tile, InRegion d p.1 p.2) ∧
    (∀ p ∈ wonAccesses d b, InRegion d p.1 p.2) ∧
    (∀ i j, InRegion d i j → 0 ≤ i ∧ i < DIM_MAX ∧ 0 ≤ j ∧ j < DIM_MAX) ∧
    (0 ≤ d - 3 ∧ 0 ≤ d - 2) ∧
    (((scan d b tile).row = 0 ∧ (scan d b tile).col = 0) ∨
      (InRegion d (scan d b tile).row (scan d b tile).col ∧
        b (scan d b tile).row (scan d b tile).col = tile)) ∧
    (((scan d b tile).blankRow = 0 ∧ (scan d b tile).blankCol = 0) ∨
      (InRegion d (scan d b tile).blankRow (scan d b tile).blankCol ∧
        b (scan d b tile).blankRow (scan d b tile).blankCol = 0)) := by
  have h3 : 3 ≤ d := hd.1
  have h9 : d ≤ 9 := hd.2
  have hnil : ∀ p ∈ ([] : List (Int × Int)), InRegion d p.1 p.2 := fun p hp => by cases hp
  refine ⟨?_, ?_, ?_, ?_, ?_, ⟨by omega, by omega⟩, scan_found_or_default d b tile⟩
  · intro p hp
    unfold initAccesses at hp
    rcases List.mem_append.1 hp with hp | hp
    · exact nested_accesses_inRegion d (fun acc => acc) (fun i j acc => acc ++ [(i, j)])
        (fun i j acc hij hacc p hp => by
          rcases List.mem_append.1 hp with hp | hp
          · exact hacc p hp
          · rw [List.mem_singleton.1 hp]; exact hij) [] hnil p hp
    · split at hp
      · simp only [List.mem_cons, List.mem_singleton, List.not_mem_nil, or_false] at hp
        rcases hp with rfl | rfl
        · exact ⟨by show 0 ≤ d - 1; omega, by show d - 1 < d; omega,
            by show 0 ≤ d - 3; omega, by show d - 3 < d; omega⟩
        · exact ⟨by show 0 ≤ d - 1; omega, by show d - 1 < d; omega,
            by show 0 ≤ d - 2; omega, by show d - 2 < d; omega⟩
      · cases hp
  · intro p hp
    unfold drawAccesses at hp
    exact nested_accesses_inRegion d (fun acc => acc)
      (fun i j acc => acc ++ drawCellAccesses b i j)
      (fun i j acc hij hacc p hp => by
        rcases List.mem_append.1 hp with hp | hp
        · exact hacc p hp
        · unfold drawCellAccesses at hp
          have : p = (i, j) := by
            split at hp <;> simp at hp <;> exact hp
          rw [this]; exact hij) [] hnil p hp
  · intro p hp
    unfold moveAccesses at hp
    split at hp
    · cases hp
    · simp only at hp
      rcases List.mem_append.1 hp with hp | hp
      · exact nested_accesses_inRegion d (fun acc => acc)
          (fun i j acc => acc ++ [(i, j), (i, j)])
          (fun i j acc hij hacc p hp => by
            rcases List.mem_append.1 hp with hp | hp
            · exact hacc p hp
            · have : p = (i, j) := by simpa using hp
              rw [this]; exact hij) [] hnil p hp
      · have hs := scan_inRegion d (by omega) b tile
        split at hp
        · simp only [List.mem_cons, List.mem_singleton, List.not_mem_nil, or_false] at hp
          rcases hp with rfl | rfl
          · exact hs.2
          · exact hs.1
        · cases hp
  · intro p hp
    unfold wonAccesses wonTraced at hp
    exact nested_accesses_inRegion d (fun s : WonState × List (Int × Int) => s.2)
      (fun i j s => (wonCell d b i j s.1, s.2 ++ wonCellAccesses d i j s.1))
      (fun i j s hij hacc p hp => by
        rcases List.mem_append.1 hp with hp | hp
        · exact hacc p hp
        · unfold wonCellAccesses at hp
          split at hp
          · cases hp
          · split at hp
            · rw [List.mem_singleton.1 hp]; exact hij
            · cases hp) _ hnil p hp
  · intro i j hij
    unfold InRegion at hij
    unfold DIM_MAX
    omega

/-! ## Concrete instances -/

theorem move_returns_one_iff_adjacent_witness :
    (DIM_MIN ≤ 3 ∧ (3 : Int) ≤ DIM_MAX) ∧ Invariant 3 (init 3 zeroBoard) ∧
      (move 3 (init 3 zeroBoard) 1).1 = 1 :=
  ⟨by decide, by decide,
    (move_returns_one_iff_adjacent 3 (by decide) (init 3 zeroBoard) (by decide) 1).1.2
      ⟨by decide, by decide, 2, 1, 2, 2, by decide, by decide, by decide, by decide,
        by decide⟩⟩

theorem move_adjacent_exchanges_two_cells_witness :
    (DIM_MIN ≤ 3 ∧ (3 : Int) ≤ DIM_MAX) ∧ Invariant 3 (init 3 zeroBoard) ∧
      InRegion 3 1 2 ∧ InRegion 3 2 2 ∧ init 3 zeroBoard 1 2 = 3 ∧ init 3 zeroBoard 2 2 = 0 ∧
      Adjacent 1 2 2 2 ∧
      (move 3 (init 3 zeroBoard) 3).1 = 1 ∧
      (move 3 (init 3 zeroBoard) 3).2 2 2 = 3 ∧ (move 3 (init 3 zeroBoard) 3).2 1 2 = 0 ∧
      (move 3 (init 3 zeroBoard) 3).2 0 0 = init 3 zeroBoard 0 0 := by
  have h := move_adjacent_exchanges_two_cells 3 (by decide) (init 3 zeroBoard) (by decide)
    3 1 2 2 2 (by decide) (by decide) (by decide) (by decide) (by decide)
  exact ⟨by decide, by decide, by decide, by decide, by decide, by decide, by decide,
    h.1, h.2.1, h.2.2.1, h.2.2.2.2.2 0 0 (by decide) (by decide)⟩

theorem move_returns_zero_board_unchanged_witness :
    (DIM_MIN ≤ 3 ∧ (3 : Int) ≤ DIM_MAX) ∧ (move 3 (init 3 zeroBoard) 8).1 = 0 ∧
      (move 3 (init 3 zeroBoard) 8).2 0 0 = init 3 zeroBoard 0 0 :=
  ⟨by decide, by decide,
    move_returns_zero_board_unchanged 3 (by decide) (init 3 zeroBoard) 8 (by decide) 0 0⟩

theorem move_out_of_range_rejected_witness :
    (DIM_MIN ≤ 3 ∧ (3 : Int) ≤ DIM_MAX) ∧ ((9 : Int) < 1 ∨ (9 : Int) > 3 * 3 - 1) ∧
      (move 3 (init 3 zeroBoard) 9).1 = 0 ∧
      (move 3 (init 3 zeroBoard) 9).2 2 1 = init 3 zeroBoard 2 1 := by
  have h := move_out_of_range_rejected 3 (by decide) (init 3 zeroBoard) 9 (by decide)
  exact ⟨by decide, by decide, h.1, h.2 2 1⟩

theorem won_iff_winning_configuration_witness :
    (DIM_MIN ≤ 3 ∧ (3 : Int) ≤ DIM_MAX) ∧ Invariant 3 (winningBoard 3) ∧
      won 3 (winningBoard 3) = 1 ∧ IsWinning 3 (winningBoard 3) :=
  ⟨by decide, by decide, by decide,
    (won_iff_winning_configuration 3 (by decide) (winningBoard 3) (by decide)).1.1
      (by decide)⟩

theorem invariant_maintained_by_session_witness :
    (DIM_MIN ≤ 3 ∧ (3 : Int) ≤ DIM_MAX) ∧
      occurrences 3 (play 3 (init 3 zeroBoard) [1, 9, 4, 0, -2, 2]) 0 = 1 ∧
      occurrences 3 (play 3 (init 3 zeroBoard) [1, 9, 4, 0, -2, 2]) 5 = 1 := by
  have h := invariant_maintained_by_session 3 (by decide) zeroBoard [1, 9, 4, 0, -2, 2]
  exact ⟨by decide, h.1, h.2 5 (by decide) (by decide)⟩

theorem init_each_value_once_witness :
    (DIM_MIN ≤ 4 ∧ (4 : Int) ≤ DIM_MAX) ∧ occurrences 4 (init 4 zeroBoard) 7 = 1 :=
  ⟨by decide, init_each_value_once 4 (by decide) zeroBoard 7 (by decide) (by decide)⟩

theorem init_descending_fill_even_swap_witness :
    (DIM_MIN ≤ 4 ∧ (4 : Int) ≤ DIM_MAX) ∧ InRegion 4 3 1 ∧ init 4 zeroBoard 3 1 = 1 ∧
      init 4 zeroBoard 3 3 = 0 :=
  ⟨by decide, by decide,
    ((init_descending_fill_even_swap 4 (by decide) zeroBoard).1 3 1 (by decide)).trans
      (by decide),
    by decide⟩

theorem init_solvable_witness :
    (DIM_MIN ≤ 4 ∧ (4 : Int) ≤ DIM_MAX) ∧
      init 4 zeroBoard (4 - 1) (4 - 1) = 0 ∧
      inversions (tiles 4 (init 4 zeroBoard)) % 2 = 0 ∧
      inversions (tiles 4 (init 4 zeroBoard)) % 2 = inversions (tiles 4 (winningBoard 4)) % 2 :=
  ⟨by decide, init_solvable 4 (by decide) zeroBoard⟩

theorem one_move_from_winning_witness :
    (DIM_MIN ≤ 3 ∧ (3 : Int) ≤ DIM_MAX) ∧
      (won 3 (nearWinLeft 3) = 0 ∧ (move 3 (nearWinLeft 3) (3 * 3 - 1)).1 = 1 ∧
        won 3 (move 3 (nearWinLeft 3) (3 * 3 - 1)).2 = 1) ∧
      (won 3 (nearWinUp 3) = 0 ∧ (move 3 (nearWinUp 3) (3 * 3 - 3)).1 = 1 ∧
        won 3 (move 3 (nearWinUp 3) (3 * 3 - 3)).2 = 1) :=
  ⟨by decide,
    one_move_from_winning 3 (by decide) (nearWinLeft 3) (nearWinUp 3)
      (fun _ _ _ => rfl) (fun _ _ _ => rfl)⟩

theorem draw_text_lines_witness :
    (DIM_MIN ≤ 3 ∧ (3 : Int) ≤ DIM_MAX) ∧ Invariant 3 (init 3 zeroBoard) ∧
      draw 3 (init 3 zeroBoard) "" =
        String.join ((idx 3).map (fun i => rowText 3 (init 3 zeroBoard) i ++ "\n")) ∧
      draw 3 (init 3 zeroBoard) "" = " 8  7  6 \n 5  4  3 \n 2  1  _ \n" :=
  ⟨by decide, by decide,
    (draw_text_lines 3 (by decide) (init 3 zeroBoard) (by decide)).1, by decide⟩

theorem session_transcript_witness :
    (DIM_MIN ≤ 3 ∧ (3 : Int) ≤ DIM_MAX) ∧
      mainLoop 3 (0 :: [5]) (init 3 zeroBoard) "" = "" ++ boardLines 3 (init 3 zeroBoard) ∧
      (won 3 (init 3 zeroBoard) = 0 ∧ (8 : Int) ≠ 0 ∧
        mainLoop 3 (8 :: [0]) (init 3 zeroBoard) "" =
          "" ++ boardLines 3 (init 3 zeroBoard) ++ (fmtInt 8 ++ "\n") ++
            mainLoop 3 [0] (move 3 (init 3 zeroBoard) 8).2 "") ∧
      sessionLog 3 [8, 1, 0] =
        "8|7|6\n5|4|3\n2|1|0\n8\n8|7|6\n5|4|3\n2|1|0\n1\n8|7|6\n5|4|3\n2|0|1\n" := by
  have h := session_transcript 3 (by decide) (init 3 zeroBoard) ""
  exact ⟨by decide, h.2.2.1 [5], ⟨by decide, by decide,
    h.2.2.2.1 8 [0] (by decide) (by decide)⟩, by decide⟩

theorem won_ignores_final_cell_witness :
    (DIM_MIN ≤ 3 ∧ (3 : Int) ≤ DIM_MAX) ∧
      won 3 ((winningBoard 3).set (3 - 1) (3 - 1) 7) = won 3 (winningBoard 3) ∧
      won 3 ((winningBoard 3).set 2 2 7) = 1 :=
  ⟨by decide, (won_ignores_final_cell 3 (by decide) (winningBoard 3)).2.2.1 7, by decide⟩

theorem move_twice_restores_witness :
    (DIM_MIN ≤ 3 ∧ (3 : Int) ≤ DIM_MAX) ∧ Invariant 3 (init 3 zeroBoard) ∧
      (move 3 (init 3 zeroBoard) 1).1 = 1 ∧
      (move 3 (move 3 (init 3 zeroBoard) 1).2 1).1 = 1 ∧
      (move 3 (move 3 (init 3 zeroBoard) 1).2 1).2 2 1 = init 3 zeroBoard 2 1 := by
  have h := move_twice_restores 3 (by decide) (init 3 zeroBoard) (by decide) 1 (by decide)
  exact ⟨by decide, by decide, by decide, h.1, h.2 2 1⟩

theorem legal_moves_count_witness :
    (DIM_MIN ≤ 3 ∧ (3 : Int) ≤ DIM_MAX) ∧ Invariant 3 (init 3 zeroBoard) ∧
      InRegion 3 2 2 ∧ init 3 zeroBoard 2 2 = 0 ∧
      (legalTiles 3 (init 3 zeroBoard)).length = (neighbours 3 2 2).length ∧
      legalTiles 3 (init 3 zeroBoard) = [1, 3] := by
  have h := legal_moves_count 3 (by decide) (init 3 zeroBoard) (by decide) 2 2
    (by decide) (by decide)
  exact ⟨by decide, by decide, by decide, by decide, h.2.2.1, by decide⟩

theorem won_zero_before_first_accepted_move_witness :
    (DIM_MIN ≤ 3 ∧ (3 : Int) ≤ DIM_MAX) ∧ won 3 (init 3 zeroBoard) = 0 ∧
      won 3 (play 3 (init 3 zeroBoard) [8, 9, -1]) = 0 := by
  have h := won_zero_before_first_accepted_move 3 (by decide) zeroBoard
  exact ⟨by decide, h.1, h.2 [8, 9, -1] (by decide)⟩

theorem board_accesses_in_bounds_witness :
    (DIM_MIN ≤ 4 ∧ (4 : Int) ≤ DIM_MAX) ∧
      (((3 : Int), (1 : Int)) ∈ initAccesses 4 ∧ InRegion 4 3 1) ∧
      (((3 : Int), (3 : Int)) ∈ moveAccesses 4 (init 4 zeroBoard) 2 ∧ InRegion 4 3 3) := by
  have h := board_accesses_in_bounds 4 (by decide) (init 4 zeroBoard) 2
  exact ⟨by decide, ⟨by decide, h.1 (3, 1) (by decide)⟩,
    ⟨by decide, h.2.2.1 (3, 3) (by decide)⟩⟩

end Fifteen
